import Mathlib

/-!
Verification of the data-workflow-engine evaluation core.

The development shallowly embeds the engine's JavaScript sources:
  * util/path-utils.js : ref-path pattern matching over a data tree
    (matches, getDataPathsForRefPath, getRefPathForDataPath);
  * resolver.js        : the expression-resolution DSL
    (resolveString, applyRelativeIndexes, collectArrayValues, resolve);
  * index.js           : pruning, validation helpers and graph evaluation
    (pruneData, preconditionsMet, validateRequired, validateCustom,
     applyCustomValidationIfFails, evaluateEdgeStates, ...).

JavaScript values that can occur in a data tree are embedded as the
inductive type JVal; machine strings are Lean strings, and the relevant
JavaScript string primitives (split, replace-first, the regexes used by
the source, isNaN coercion) are modelled character by character.
-/

/-- Embedding of a JavaScript value as it can occur in a data tree or a
configuration resolvable: null, undefined, booleans, numbers (the sources
only ever compare numbers for truthiness and equality, so an integer
model suffices), strings, arrays and plain objects (ordered key-value
lists, as JavaScript objects preserve insertion order). -/
inductive JVal where
  | null
  | undef
  | bool (b : Bool)
  | num (n : Int)
  | str (s : String)
  | arr (items : List JVal)
  | obj (fields : List (String × JVal))
deriving Repr

mutual
/-- Structural equality of embedded JavaScript values. -/
def JVal.beq : JVal → JVal → Bool
  | .null, .null => true
  | .undef, .undef => true
  | .bool a, .bool b => a == b
  | .num a, .num b => a == b
  | .str a, .str b => a == b
  | .arr a, .arr b => JVal.beqList a b
  | .obj a, .obj b => JVal.beqFields a b
  | _, _ => false

/-- Elementwise equality of value lists. -/
def JVal.beqList : List JVal → List JVal → Bool
  | [], [] => true
  | a :: as, b :: bs => JVal.beq a b && JVal.beqList as bs
  | _, _ => false

/-- Elementwise equality of field lists. -/
def JVal.beqFields : List (String × JVal) → List (String × JVal) → Bool
  | [], [] => true
  | a :: as, b :: bs => (a.1 == b.1 && JVal.beq a.2 b.2) && JVal.beqFields as bs
  | _, _ => false
end

instance : BEq JVal := ⟨JVal.beq⟩

mutual
theorem JVal.beq_refl : ∀ a : JVal, JVal.beq a a = true
  | .null => rfl
  | .undef => rfl
  | .bool a => by simp [JVal.beq]
  | .num a => by simp [JVal.beq]
  | .str a => by simp [JVal.beq]
  | .arr a => by simp [JVal.beq, JVal.beqList_refl a]
  | .obj a => by simp [JVal.beq, JVal.beqFields_refl a]

theorem JVal.beqList_refl : ∀ a : List JVal, JVal.beqList a a = true
  | [] => rfl
  | a :: as => by simp [JVal.beqList, JVal.beq_refl a, JVal.beqList_refl as]

theorem JVal.beqFields_refl : ∀ a : List (String × JVal), JVal.beqFields a a = true
  | [] => rfl
  | a :: as => by simp [JVal.beqFields, JVal.beq_refl a.2, JVal.beqFields_refl as]
end

mutual
theorem JVal.eq_of_beq : ∀ a b : JVal, JVal.beq a b = true → a = b
  | .null, .null, _ => rfl
  | .undef, .undef, _ => rfl
  | .bool a, .bool b, h => by simpa [JVal.beq] using h
  | .num a, .num b, h => by simpa [JVal.beq] using h
  | .str a, .str b, h => by simpa [JVal.beq] using h
  | .arr a, .arr b, h => by
    rw [JVal.eqList_of_beq a b (by simpa [JVal.beq] using h)]
  | .obj a, .obj b, h => by
    rw [JVal.eqFields_of_beq a b (by simpa [JVal.beq] using h)]

theorem JVal.eqList_of_beq : ∀ a b : List JVal, JVal.beqList a b = true → a = b
  | [], [], _ => rfl
  | a :: as, b :: bs, h => by
    have h1 : JVal.beq a b = true := by
      have := h; simp [JVal.beqList, Bool.and_eq_true] at this; exact this.1
    have h2 : JVal.beqList as bs = true := by
      have := h; simp [JVal.beqList, Bool.and_eq_true] at this; exact this.2
    rw [JVal.eq_of_beq a b h1, JVal.eqList_of_beq as bs h2]

theorem JVal.eqFields_of_beq :
    ∀ a b : List (String × JVal), JVal.beqFields a b = true → a = b
  | [], [], _ => rfl
  | a :: as, b :: bs, h => by
    have h0 : a.1 = b.1 ∧ JVal.beq a.2 b.2 = true ∧ JVal.beqFields as bs = true := by
      have := h; simp [JVal.beqFields, Bool.and_eq_true] at this
      exact ⟨this.1.1, this.1.2, this.2⟩
    have hab : a = b := by
      cases a; cases b
      simp only [Prod.mk.injEq]
      exact ⟨h0.1, JVal.eq_of_beq _ _ h0.2.1⟩
    rw [hab, JVal.eqFields_of_beq as bs h0.2.2]
end

instance : DecidableEq JVal := fun a b =>
  if h : JVal.beq a b = true then isTrue (JVal.eq_of_beq a b h)
  else isFalse (fun he => h (he ▸ JVal.beq_refl a))

instance : LawfulBEq JVal where
  eq_of_beq h := JVal.eq_of_beq _ _ h
  rfl := JVal.beq_refl _

/-- JavaScript truthiness of an embedded value (0, empty string, null,
undefined and false are falsy; every array and object is truthy). -/
def truthy : JVal → Bool
  | .null => false
  | .undef => false
  | .bool b => b
  | .num n => n != 0
  | .str s => s != ""
  | .arr _ => true
  | .obj _ => true

/-- Decimal digit test, modelling the regex class backslash-d of
JavaScript (the characters 0 through 9). -/
def isDigitChar (c : Char) : Bool := '0' ≤ c && c ≤ '9'

/-- Models the truthiness of s.match(/\d/) in JavaScript: the string
contains at least one decimal digit character. -/
def containsDigit (s : String) : Bool := s.toList.any isDigitChar

/-- Splits a character list at every occurrence of the separator,
modelling JavaScript String.prototype.split with a one-character
separator (the empty string splits to a singleton empty piece, exactly
as in JavaScript). -/
def splitOnChar (sep : Char) : List Char → List (List Char)
  | [] => [[]]
  | c :: rest =>
    match splitOnChar sep rest with
    | [] => [[c]]
    | t :: ts => if c = sep then [] :: t :: ts else (c :: t) :: ts

/-- JavaScript s.split(sep) for a one-character separator. -/
def jsSplit (s : String) (sep : Char) : List String :=
  (splitOnChar sep s.toList).map (fun cs => String.mk cs)

/-- Removes the first occurrence of the pattern from the character list,
modelling JavaScript String.prototype.replace with a string pattern and
an empty replacement (only the first occurrence is replaced). -/
def replaceOnceChars (pat : List Char) : List Char → List Char
  | [] => []
  | c :: rest =>
    if pat.isPrefixOf (c :: rest) then (c :: rest).drop pat.length
    else c :: replaceOnceChars pat rest

/-- JavaScript s.replace(pat, empty-string): drop the first occurrence
of pat from s. -/
def jsReplaceOnce (s pat : String) : String :=
  String.mk (replaceOnceChars pat.toList s.toList)

/-- JavaScript s.indexOf(pat) === 0, i.e. s starts with pat. -/
def jsStartsWith (s pat : String) : Bool :=
  pat.toList.isPrefixOf s.toList

/-- JavaScript s.indexOf(c) !== -1 for a one-character needle. -/
def jsContainsChar (s : String) (c : Char) : Bool :=
  s.toList.contains c

/-- All characters are decimal digits. -/
def allDigits (cs : List Char) : Bool := cs.all isDigitChar

/-- Mantissa of a JavaScript decimal number literal: digits with an
optional decimal point, at least one digit overall. -/
def decMantissa (cs : List Char) : Bool :=
  match splitOnChar '.' cs with
  | [a] => !a.isEmpty && allDigits a
  | [a, b] => allDigits a && allDigits b && (!a.isEmpty || !b.isEmpty)
  | _ => false

/-- Exponent tail of a decimal literal, after the e or E: an optional
sign followed by one or more digits. -/
def expDigits : List Char → Bool
  | '+' :: rest => !rest.isEmpty && allDigits rest
  | '-' :: rest => !rest.isEmpty && allDigits rest
  | rest => !rest.isEmpty && allDigits rest

/-- Decimal body of a JavaScript number literal: a mantissa with an
optional exponent part introduced by the first e or E. -/
def decBody (cs : List Char) : Bool :=
  match cs.span (fun c => c ≠ 'e' && c ≠ 'E') with
  | (m, []) => decMantissa m
  | (m, _ :: rest) => decMantissa m && expDigits rest

/-- Strips one optional leading sign character. -/
def stripSign : List Char → List Char
  | '+' :: rest => rest
  | '-' :: rest => rest
  | cs => cs

/-- Hexadecimal digit test. -/
def isHexDigitChar (c : Char) : Bool :=
  isDigitChar c || ('a' ≤ c && c ≤ 'f') || ('A' ≤ c && c ≤ 'F')

/-- Radix (hex, octal, binary) number literal, which JavaScript accepts
without a sign. -/
def radixLiteral : List Char → Bool
  | '0' :: x :: rest =>
    if x = 'x' || x = 'X' then !rest.isEmpty && rest.all isHexDigitChar
    else if x = 'o' || x = 'O' then !rest.isEmpty && rest.all (fun c => '0' ≤ c && c ≤ '7')
    else if x = 'b' || x = 'B' then !rest.isEmpty && rest.all (fun c => c = '0' || c = '1')
    else false
  | _ => false

/-- Models JavaScript !isNaN(s) for a string s, i.e. ToNumber(s) is not
NaN: after trimming whitespace the string is empty (coerces to 0), a
radix literal, or an optionally signed Infinity or decimal literal. -/
def jsIsNumeric (s : String) : Bool :=
  let t := (s.toList.dropWhile Char.isWhitespace).reverse.dropWhile Char.isWhitespace |>.reverse
  if t.isEmpty then true
  else
    radixLiteral t ||
      (let u := stripSign t
       u = "Infinity".toList || decBody u)

/-- Embeds the matches helper of util/path-utils.js: a ref-path token
list matches a concrete data path iff they have the same length and,
reducing over the tokens, each data token equals the ref token or the
ref token is the wildcard and the data token matches the regex
backslash-d (contains a decimal digit). The source indexes dataPath by
position inside a reduce over refPath; with equal lengths this is a fold
over the zipped lists. The source calls this helper matches, which is a
reserved word in Lean. -/
def matchesPath (refPath dataPath : List String) : Bool :=
  refPath.length == dataPath.length &&
    (refPath.zip dataPath).foldl
      (fun memo td =>
        memo && (td.2 == td.1 || (td.1 == "*" && containsDigit td.2)))
      true

mutual
/-- All concrete paths of a data tree in the pre-order in which the
traverse package visits nodes: the root path first, then every node of
each child subtree in order; object children in key order, array
children in index order with the index stringified (traverse reports
path tokens as strings). -/
def pathsOf : JVal → List (List String)
  | .arr items => [] :: pathsOfArr 0 items
  | .obj fields => [] :: pathsOfObj fields
  | _ => [[]]

/-- Paths of the elements of an array, with stringified indices starting
at the given index. -/
def pathsOfArr (i : Nat) : List JVal → List (List String)
  | [] => []
  | v :: rest => (pathsOf v).map (fun p => toString i :: p) ++ pathsOfArr (i + 1) rest

/-- Paths of the fields of an object, in field order. -/
def pathsOfObj : List (String × JVal) → List (List String)
  | [] => []
  | kv :: rest => (pathsOf kv.2).map (fun p => kv.1 :: p) ++ pathsOfObj rest
end

/-- The token list a ref-path string is turned into by
getDataPathsForRefPath: drop the first occurrence of the dollar-dot
marker, then split on dots. -/
def refTokens (path : String) : List String :=
  jsSplit (jsReplaceOnce path "$.") '.'

/-- Embeds getDataPathsForRefPath of util/path-utils.js: traverse the
data tree and collect, in visit order, every concrete path that matches
the ref-path token list. The traverse-and-conditionally-push loop of
the source is exactly a filter of the pre-order path enumeration. -/
def getDataPathsForRefPath (path : String) (data : JVal) : List (List String) :=
  let refPathArr := refTokens path
  (pathsOf data).filter (fun p => matchesPath refPathArr p)

/-- Removes a trailing dot-star from a string, modelling the regex
replace of a dot-star suffix in getRefPathForDataPath. -/
def stripTrailingDotStar (s : String) : String :=
  let cs := s.toList
  if ['.', '*'].isSuffixOf cs then String.mk (cs.take (cs.length - 2)) else s

/-- The per-token substitution of getRefPathForDataPath: a token that
JavaScript isNaN reports numeric becomes the wildcard, any other token
passes through. -/
def substTok (prop : String) : String :=
  if jsIsNumeric prop then "*" else prop

/-- Embeds getRefPathForDataPath of util/path-utils.js: fold the
concrete path into a dollar-rooted dotted string, replacing every token
that JavaScript isNaN reports numeric with the wildcard, then remove a
trailing dot-star segment. -/
def getRefPathForDataPath (dataPath : List String) : String :=
  stripTrailingDotStar
    (dataPath.foldl (fun memo prop => memo ++ "." ++ substTok prop) "$")

/-- Spec-side notion used by claim C1: a token that is a non-negative
integer array index, i.e. a non-empty string of decimal digits. -/
def isIndexToken (s : String) : Bool := s != "" && s.toList.all isDigitChar

theorem foldl_and_eq_all {α : Type} (f : α → Bool) (l : List α) (b : Bool) :
    l.foldl (fun m x => m && f x) b = (b && l.all f) := by
  induction l generalizing b with
  | nil => simp
  | cons x xs ih => simp [List.foldl_cons, ih, Bool.and_assoc]

theorem zip_all_iff_getD (cond : String → String → Bool) :
    ∀ (ref p : List String), ref.length = p.length →
      ((((ref.zip p).all fun td => cond td.1 td.2) = true) ↔
        ∀ i, i < p.length → cond (ref.getD i "") (p.getD i "") = true)
  | [], [], _ => by simp
  | [], _ :: _, h => by simp at h
  | _ :: _, [], h => by simp at h
  | r :: rs, q :: qs, h => by
    simp only [List.zip_cons_cons, List.all_cons, Bool.and_eq_true]
    have ih := zip_all_iff_getD cond rs qs (by simpa using h)
    constructor
    · rintro ⟨h0, h1⟩ i hi
      cases i with
      | zero => simpa using h0
      | succ j =>
        simpa using (ih.mp h1) j (by simpa using hi)
    · intro hall
      refine ⟨by simpa using hall 0 (by simp), ih.mpr ?_⟩
      intro j hj
      simpa using hall (j + 1) (by simpa using hj)

/-- Pointwise characterization of the matches helper: a ref-path token
list matches a concrete path iff they have equal length and, at every
position, the concrete token equals the ref token or the ref token is
the wildcard and the concrete token contains a decimal digit. -/
theorem matchesPath_iff (ref p : List String) :
    matchesPath ref p = true ↔
      ref.length = p.length ∧
        ∀ i, i < p.length →
          p.getD i "" = ref.getD i "" ∨
            (ref.getD i "" = "*" ∧ containsDigit (p.getD i "") = true) := by
  unfold matchesPath
  simp only [foldl_and_eq_all, Bool.true_and, Bool.and_eq_true, beq_iff_eq]
  constructor
  · rintro ⟨hlen, hall⟩
    refine ⟨hlen, ?_⟩
    intro i hi
    have := (zip_all_iff_getD
      (fun t d => d == t || (t == "*" && containsDigit d)) ref p hlen).mp hall i hi
    simpa [Bool.or_eq_true, Bool.and_eq_true, beq_iff_eq] using this
  · rintro ⟨hlen, hpt⟩
    refine ⟨hlen, (zip_all_iff_getD
      (fun t d => d == t || (t == "*" && containsDigit d)) ref p hlen).mpr ?_⟩
    intro i hi
    simpa [Bool.or_eq_true, Bool.and_eq_true, beq_iff_eq] using hpt i hi

/-- Claim C1 (amended): getDataPathsForRefPath returns exactly the
concrete paths of the tree that have the same length as the pattern and
whose tokens are, position-wise, either equal to the pattern token or
matched by a pattern token that is the wildcard with the concrete token
containing at least one decimal digit character (the regex used by the
source), in tree traversal order. -/
theorem mem_getDataPathsForRefPath_iff (path : String) (data : JVal) (p : List String) :
    p ∈ getDataPathsForRefPath path data ↔
      p ∈ pathsOf data ∧ (refTokens path).length = p.length ∧
        ∀ i, i < p.length →
          p.getD i "" = (refTokens path).getD i "" ∨
            ((refTokens path).getD i "" = "*" ∧ containsDigit (p.getD i "") = true) := by
  unfold getDataPathsForRefPath
  rw [List.mem_filter, matchesPath_iff]

/-- Claim C1 (counterexample): on the data tree with the single key a1,
the wildcard pattern returns the path with token a1, although a1 is not
a non-negative integer index; the claim that no path with a non-integer
token in a wildcard position is returned is false at this input. -/
theorem getDataPathsForRefPath_matches_noninteger_token :
    ["a1"] ∈ getDataPathsForRefPath "$.*" (JVal.obj [("a1", JVal.num 5)]) ∧
      isIndexToken "a1" = false := by
  decide

/-- The character tail a token list contributes to a dollar-rooted
dotted pattern: a dot before each token. -/
def dottedTail (toks : List String) : List Char :=
  toks.foldr (fun t acc => '.' :: t.toList ++ acc) []

theorem dottedTail_append (a : List String) (t : String) :
    dottedTail (a ++ [t]) = dottedTail a ++ '.' :: t.toList := by
  induction a with
  | nil => simp [dottedTail]
  | cons u us ih => simp [dottedTail] at ih ⊢; simp [ih]

theorem refFold_toList (p : List String) (s : String) :
    (p.foldl (fun memo prop => memo ++ "." ++ substTok prop) s).toList
      = s.toList ++ dottedTail (p.map substTok) := by
  induction p generalizing s with
  | nil => simp [dottedTail]
  | cons t ts ih =>
    rw [List.foldl_cons, ih]
    show (s ++ "." ++ substTok t).toList ++ _ = _
    have hap : ∀ a b : String, (a ++ b).toList = a.toList ++ b.toList := fun a b => rfl
    simp [hap, dottedTail]

theorem isPrefixOf_append_self (a b : List Char) : a.isPrefixOf (a ++ b) = true := by
  simp [List.isPrefixOf_iff_prefix]

theorem replaceOnce_self (pat l : List Char) (h : pat ≠ []) :
    replaceOnceChars pat (pat ++ l) = l := by
  cases pat with
  | nil => exact absurd rfl h
  | cons a as =>
    show replaceOnceChars (a :: as) (a :: (as ++ l)) = l
    rw [replaceOnceChars]
    have hpre : (a :: as).isPrefixOf (a :: (as ++ l)) = true := by
      exact isPrefixOf_append_self (a :: as) l
    rw [hpre]
    simp only [if_true]
    exact List.drop_left (a :: as) l

theorem splitOnChar_ne_nil (sep : Char) (l : List Char) : splitOnChar sep l ≠ [] := by
  cases l with
  | nil => simp [splitOnChar]
  | cons c rest =>
    rw [splitOnChar]
    rcases h : splitOnChar sep rest with _ | ⟨t, ts⟩
    · simp
    · by_cases hc : c = sep <;> simp [hc]

theorem splitOnChar_no_sep (sep : Char) (xs : List Char) (h : ¬ sep ∈ xs) :
    splitOnChar sep xs = [xs] := by
  induction xs with
  | nil => rfl
  | cons c rest ih =>
    have hc : c ≠ sep := fun he => h (he ▸ List.mem_cons_self c rest)
    have hrest : ¬ sep ∈ rest := fun hm => h (List.mem_cons_of_mem c hm)
    rw [splitOnChar, ih hrest]
    simp [hc]

theorem splitOnChar_append (sep : Char) (xs rest : List Char) (h : ¬ sep ∈ xs) :
    splitOnChar sep (xs ++ sep :: rest) = xs :: splitOnChar sep rest := by
  induction xs with
  | nil =>
    rw [List.nil_append, splitOnChar]
    rcases hr : splitOnChar sep rest with _ | ⟨t, ts⟩
    · exact absurd hr (splitOnChar_ne_nil sep rest)
    · simp
  | cons c xs ih =>
    have hc : c ≠ sep := fun he => h (he ▸ List.mem_cons_self c xs)
    have hxs : ¬ sep ∈ xs := fun hm => h (List.mem_cons_of_mem c hm)
    rw [List.cons_append, splitOnChar, ih hxs]
    simp [hc]

theorem splitDotted (t : String) (ts : List String)
    (h : ∀ u ∈ t :: ts, jsContainsChar u '.' = false) :
    splitOnChar '.' (t.toList ++ dottedTail ts) = (t :: ts).map String.toList := by
  induction ts generalizing t with
  | nil =>
    have ht : ¬ '.' ∈ t.toList := by
      have := h t (List.mem_cons_self t [])
      simpa [jsContainsChar] using this
    show splitOnChar '.' (t.toList ++ dottedTail []) = [t].map String.toList
    have hdt : dottedTail [] = [] := rfl
    rw [hdt, List.append_nil, splitOnChar_no_sep '.' t.toList ht]
    rfl
  | cons u us ih =>
    have ht : ¬ '.' ∈ t.toList := by
      have := h t (List.mem_cons_self t (u :: us))
      simpa [jsContainsChar] using this
    have hrest : ∀ w ∈ u :: us, jsContainsChar w '.' = false := by
      intro w hw
      exact h w (List.mem_cons_of_mem t hw)
    have hdt : dottedTail (u :: us) = '.' :: (u.toList ++ dottedTail us) := by
      simp [dottedTail]
    rw [hdt, splitOnChar_append '.' t.toList (u.toList ++ dottedTail us) ht, ih u hrest]
    simp

theorem stripTrailingDotStar_eq_self (s : String)
    (h : List.isSuffixOf ['.', '*'] s.toList = false) :
    stripTrailingDotStar s = s := by
  unfold stripTrailingDotStar
  simp only [h]
  simp

theorem noDotStarSuffix (l : List Char) (t : String)
    (ht : t.toList ≠ []) (hstar : t ≠ "*") (hdot : ¬ '.' ∈ t.toList) :
    List.isSuffixOf ['.', '*'] (l ++ '.' :: t.toList) = false := by
  show List.isPrefixOf ['*', '.'] (l ++ '.' :: t.toList).reverse = false
  have hrev : (l ++ '.' :: t.toList).reverse = t.toList.reverse ++ ('.' :: l.reverse) := by
    simp
  rw [hrev]
  rcases hcs : t.toList.reverse with _ | ⟨c, cs⟩
  · exact absurd (by simpa using congrArg List.reverse hcs) ht
  · by_cases hc : c = '*'
    · rcases hds : cs with _ | ⟨d, ds⟩
      · exfalso
        apply hstar
        have h1 : t.toList.reverse = ['*'] := by rw [hcs, hds, hc]
        have h2 : t.toList = ['*'] := by
          have := congrArg List.reverse h1
          simpa using this
        have h3 : String.mk t.toList = String.mk ['*'] := congrArg String.mk h2
        simpa using h3
      · have hd : d ∈ t.toList := by
          have hm : d ∈ t.toList.reverse := by rw [hcs, hds]; simp
          simpa using hm
        have hdne : ('.' : Char) ≠ d := fun he => hdot (he ▸ hd)
        subst hc
        have hb : (('.' : Char) == d) = false := beq_eq_false_iff_ne.mpr hdne
        simp [List.cons_append, List.isPrefixOf, hb]
    · have hb : (('*' : Char) == c) = false :=
        beq_eq_false_iff_ne.mpr (fun he => hc he.symm)
      simp [List.cons_append, List.isPrefixOf, hb]

theorem refTokens_roundTrip (q : List String) (t : String)
    (hdot : ∀ u ∈ q ++ [t], jsContainsChar u '.' = false)
    (ht : jsIsNumeric t = false) (hstar : t ≠ "*") :
    refTokens (getRefPathForDataPath (q ++ [t])) = (q ++ [t]).map substTok := by
  have htne : t.toList ≠ [] := by
    intro h0
    have he : t = "" := by
      have := congrArg String.mk h0
      simpa using this
    rw [he] at ht
    exact absurd ht (by decide)
  have hsub : substTok t = t := by simp [substTok, ht]
  have htokdot : ∀ u ∈ (q ++ [t]).map substTok, jsContainsChar u '.' = false := by
    intro u hu
    obtain ⟨w, hw, rfl⟩ := List.mem_map.mp hu
    by_cases hn : jsIsNumeric w = true
    · simp [substTok, hn]
      decide
    · simp [substTok, Bool.of_not_eq_true hn]
      exact hdot w hw
  have hmap : (q ++ [t]).map substTok = q.map substTok ++ [t] := by
    rw [List.map_append, List.map_singleton, hsub]
  have hfold :
      ((q ++ [t]).foldl (fun memo prop => memo ++ "." ++ substTok prop) "$").toList
        = ('$' :: dottedTail (q.map substTok)) ++ '.' :: t.toList := by
    rw [refFold_toList, hmap, dottedTail_append]
    rfl
  have hdotT : ¬ '.' ∈ t.toList := by
    have := hdot t (by simp)
    simpa [jsContainsChar] using this
  have hnostrip :
      getRefPathForDataPath (q ++ [t])
        = (q ++ [t]).foldl (fun memo prop => memo ++ "." ++ substTok prop) "$" := by
    unfold getRefPathForDataPath
    apply stripTrailingDotStar_eq_self
    rw [hfold]
    exact noDotStarSuffix ('$' :: dottedTail (q.map substTok)) t htne hstar hdotT
  rw [hnostrip]
  rcases htk : (q ++ [t]).map substTok with _ | ⟨t0, rest⟩
  · exact absurd htk (by simp)
  · have hfold2 :
        ((q ++ [t]).foldl (fun memo prop => memo ++ "." ++ substTok prop) "$").toList
          = "$.".toList ++ (t0.toList ++ dottedTail rest) := by
      rw [refFold_toList, htk]
      simp [dottedTail]
    unfold refTokens jsReplaceOnce jsSplit
    have hrepl :
        replaceOnceChars "$.".toList
            ((q ++ [t]).foldl (fun memo prop => memo ++ "." ++ substTok prop) "$").toList
          = t0.toList ++ dottedTail rest := by
      rw [hfold2]
      exact replaceOnce_self "$.".toList (t0.toList ++ dottedTail rest) (by decide)
    have hdot2 : ∀ u ∈ t0 :: rest, jsContainsChar u '.' = false := by
      intro u hu
      apply htokdot
      rw [htk]
      exact hu
    have hsplit :
        splitOnChar '.' (t0.toList ++ dottedTail rest) = (t0 :: rest).map String.toList :=
      splitDotted t0 rest hdot2
    show ((splitOnChar '.' (String.mk (replaceOnceChars _ _)).toList).map
        fun cs => String.mk cs) = _
    have hmk : ∀ l : List Char, (String.mk l).toList = l := fun l => rfl
    rw [hmk, hrepl, hsplit, List.map_map]
    have hco : ((fun cs => String.mk cs) ∘ String.toList) = id := rfl
    rw [hco, List.map_id]

theorem containsDigit_of_isIndexToken (u : String) (h : isIndexToken u = true) :
    containsDigit u = true := by
  unfold isIndexToken at h
  rw [Bool.and_eq_true] at h
  obtain ⟨hne, hall⟩ := h
  unfold containsDigit
  rcases hu : u.toList with _ | ⟨c, cs⟩
  · exfalso
    have he : u = "" := by
      have := congrArg String.mk hu
      simpa using this
    rw [he] at hne
    simp at hne
  · have hc : isDigitChar c = true := by
      have hmem : c ∈ u.toList := by rw [hu]; simp
      exact List.all_eq_true.mp hall c hmem
    simp [List.any_cons, hc]

/-- Claim C3 (amended): for every concrete path whose final token is not
numeric in the sense of JavaScript isNaN and is not the literal wildcard
token, whose tokens contain no dot, and whose numeric tokens are
non-negative integer indices, getDataPathsForRefPath applied to
getRefPathForDataPath of the path returns a list that includes the path
whenever the path exists in the tree. A path whose final token is an
integer index is excluded: getRefPathForDataPath drops the trailing
wildcard segment for such a path, so the round trip cannot recover it
(see the counterexample). -/
theorem roundTrip_mem (tree : JVal) (q : List String) (t : String)
    (hdot : ∀ u ∈ q ++ [t], jsContainsChar u '.' = false)
    (hnum : ∀ u ∈ q ++ [t], jsIsNumeric u = true → isIndexToken u = true)
    (ht : jsIsNumeric t = false) (hstar : t ≠ "*")
    (hp : q ++ [t] ∈ pathsOf tree) :
    q ++ [t] ∈ getDataPathsForRefPath (getRefPathForDataPath (q ++ [t])) tree := by
  unfold getDataPathsForRefPath
  rw [List.mem_filter]
  refine ⟨hp, ?_⟩
  rw [refTokens_roundTrip q t hdot ht hstar]
  unfold matchesPath
  rw [foldl_and_eq_all]
  have hlen : ((q ++ [t]).map substTok).length = (q ++ [t]).length := by
    simp
  have hz : ((q ++ [t]).map substTok).zip (q ++ [t])
      = (q ++ [t]).map fun u => (substTok u, u) := by
    have := List.zip_map' substTok id (q ++ [t])
    simpa using this
  rw [hz, Bool.and_eq_true]
  constructor
  · simp [hlen]
  · rw [Bool.true_and, List.all_eq_true]
    intro td htd
    obtain ⟨w, hw, rfl⟩ := List.mem_map.mp htd
    by_cases hn : jsIsNumeric w = true
    · have hcd := containsDigit_of_isIndexToken w (hnum w hw hn)
      simp [substTok, hn, hcd]
    · have hn0 : jsIsNumeric w = false := Bool.of_not_eq_true hn
      simp [substTok, hn0]

/-- Claim C3 (counterexample): the concrete path a, 0 exists in the tree
in which key a holds a one-element array, but the round trip does not
include it: getRefPathForDataPath drops the trailing wildcard segment
produced by the integer token, so the resulting pattern matches only the
shorter path a. -/
theorem roundTrip_drops_trailing_index :
    ["a", "0"] ∈ pathsOf (JVal.obj [("a", JVal.arr [JVal.num 5])]) ∧
      ¬ ["a", "0"] ∈ getDataPathsForRefPath
          (getRefPathForDataPath ["a", "0"])
          (JVal.obj [("a", JVal.arr [JVal.num 5])]) := by
  decide

/-- Witness for the amended claim C3 at a concrete input: the path
a, 0, b inside a repeated group is recovered by the round trip. -/
theorem roundTrip_mem_witness :
    ["a", "0", "b"] ∈ getDataPathsForRefPath
        (getRefPathForDataPath ["a", "0", "b"])
        (JVal.obj [("a", JVal.arr [JVal.obj [("b", JVal.num 1)]])]) :=
  roundTrip_mem (JVal.obj [("a", JVal.arr [JVal.obj [("b", JVal.num 1)]])])
    ["a", "0"] "b"
    (by decide) (by decide) (by decide) (by decide) (by decide)

/-- Lookup of a key in an object field list: the first binding wins, as
JavaScript objects hold at most one binding per key. -/
def fieldLookup (fields : List (String × JVal)) (key : String) : Option JVal :=
  (fields.find? (fun kv => kv.1 == key)).map (fun kv => kv.2)

/-- Canonical decimal array-index key: the property access arr at key
hits an element exactly when the key is the canonical decimal string of
an index (no sign, no leading zero except the index 0 itself). -/
def isIndexKey (s : String) : Bool :=
  match s.toList with
  | [] => false
  | ['0'] => true
  | c :: cs => ('1' ≤ c && c ≤ '9') && cs.all isDigitChar

/-- Numeric value of a decimal digit string. -/
def digitsToNat (cs : List Char) : Nat :=
  cs.foldl (fun acc c => acc * 10 + (c.toNat - '0'.toNat)) 0

/-- Numeric value of a decimal key. -/
def keyToNat (s : String) : Nat := digitsToNat s.toList

/-- One step of a lodash get walk: property access of a string key on a
value. Object fields are looked up by key; arrays hit an element exactly
when the key is a canonical index below the length; every other access
yields undefined (none). String character access and the array length
property are not modelled: no path produced by the engine traversals
accesses them. -/
def childLookup : JVal → String → Option JVal
  | .obj fields, k => fieldLookup fields k
  | .arr items, k => if isIndexKey k then items.get? (keyToNat k) else none
  | _, _ => none

/-- The walk of lodash baseGet along a path of string keys: undefined as
soon as a step misses, the reached value otherwise. -/
def getWalk : JVal → List String → JVal
  | v, [] => v
  | v, k :: rest =>
    match childLookup v k with
    | some c => getWalk c rest
    | none => JVal.undef

/-- lodash get with a path given as a key array: baseGet returns
undefined for an empty path (its final index check fails), otherwise
the walk. -/
def lodashGet (data : JVal) (path : List String) : JVal :=
  match path with
  | [] => JVal.undef
  | _ => getWalk data path

/-- The target path argument threaded through the resolver: undefined
(derived evaluation and the required-message resolution), a concrete
token array (pruning and custom validation), or a dotted string (the
required checks resolve preconditions against dotted path strings). -/
inductive TPath where
  | undef
  | str (s : String)
  | list (toks : List String)
deriving Repr, DecidableEq

/-- JavaScript truthiness of the target path value. -/
def TPath.isTruthy : TPath → Bool
  | .undef => false
  | .str s => s != ""
  | .list _ => true

/-- lodash get data targetPath for the three target path shapes: a
string path is split on dots (stringToPath; the engine only produces
dotted paths), an array path is used as is, and an absent path yields
undefined. -/
def lodashGetT (data : JVal) : TPath → JVal
  | .undef => JVal.undef
  | .str s => lodashGet data (jsSplit s '.')
  | .list toks => lodashGet data toks

/-- The token of the target path at a position, as rendered by
Array.prototype.join after the positional map in applyRelativeIndexes:
an absent target path defaults to the empty array, an out-of-range
access yields undefined, and join renders undefined as the empty
string; indexing a string target path yields its character. -/
def TPath.tokenAt : TPath → Nat → String
  | .undef, _ => ""
  | .list toks, i => toks.getD i ""
  | .str s, i =>
    match s.toList.get? i with
    | some c => String.mk [c]
    | none => ""

/-- Embeds applyRelativeIndexes of resolver.js: split the pattern on
dots, replace each caret token by the target path token at the same
position, join with dots. -/
def applyRelativeIndexes (pathStr : String) (targetPath : TPath) : String :=
  String.intercalate "."
    ((jsSplit pathStr '.').enum.map
      (fun itok => if itok.2 == "^" then targetPath.tokenAt itok.1 else itok.2))

/-- Embeds collectArrayValues of resolver.js: the values of the data
tree at every concrete path matching the wildcard pattern, in match
order. -/
def collectArrayValues (pathStr : String) (data : JVal) : JVal :=
  JVal.arr ((getDataPathsForRefPath pathStr data).map (fun p => lodashGet data p))

/-- The ref-path cases of resolveString: the cases the control flow of
the source reaches after the dollar-value check (also reached by fall
through when the dollar-value sentinel has no target path). A string
starting with the dollar-dot marker is a ref-path: relative carets are
substituted first, a pattern containing a wildcard collects all
matching values, any other ref-path reads one location; every other
string is a literal. -/
def resolveStringRef (string : String) (data : JVal) (targetPath : TPath) : JVal :=
  if jsStartsWith string "$." then
    let pathStr :=
      if jsContainsChar string '^' then
        "$." ++ applyRelativeIndexes (jsReplaceOnce string "$.") targetPath
      else string
    if jsContainsChar pathStr '*' then collectArrayValues pathStr data
    else lodashGet data (jsSplit (jsReplaceOnce pathStr "$.") '.')
  else JVal.str string

/-- Embeds resolveString of resolver.js. The dollar-value sentinel with
a truthy target path reads the target location; with an absent target
path the source logs a console warning and, having no early return,
falls through to the ref-path checks (which a dollar-value string never
satisfies, so the literal string itself is returned). The second
component records the warnings. -/
def resolveString (string : String) (data : JVal) (targetPath : TPath) :
    JVal × List String :=
  if string == "$value" then
    if targetPath.isTruthy then (lodashGetT data targetPath, [])
    else
      (resolveStringRef string data targetPath,
        ["$value specified, but no targetPath defined"])
  else (resolveStringRef string data targetPath, [])


/-- Property access resolvable at key for an object resolvable; every
other resolvable yields undefined on property access (strings and
arrays have no fn or args property in a configuration). -/
def objField : JVal → String → Option JVal
  | .obj fields, k => fieldLookup fields k
  | _, _ => none

/-- The function-call name of a resolvable: the value of its fn field
when that value is a string naming a capability (the source looks the
field value up as a context key; non-string field values would be
coerced to strings, which no configuration uses and which is not
modelled). -/
def fnNameOf (r : JVal) : Option String :=
  match objField r "fn" with
  | some (.str s) => some s
  | _ => none

/-- The argument list of a function-call resolvable: its args field
when that is an array, the empty list otherwise, as in the source. -/
def argsOf (r : JVal) : List JVal :=
  match objField r "args" with
  | some (.arr xs) => xs
  | _ => []

/-- The resolver context: a mapping from capability name to a function
on resolved values (the external function collaborators). -/
def Ctx := String → Option (List JVal → JVal)

theorem list_sizeOf_pos {α : Type} [SizeOf α] (l : List α) : 1 ≤ sizeOf l := by
  cases l with
  | nil => simp
  | cons a as => simp; omega

theorem sizeOf_field_lt {fields : List (String × JVal)} {kv : String × JVal}
    (h : kv ∈ fields) : sizeOf kv.2 < sizeOf (JVal.obj fields) := by
  have h1 : sizeOf kv < sizeOf fields := List.sizeOf_lt_of_mem h
  have h2 : sizeOf kv.2 < sizeOf kv := by
    cases kv with
    | mk a b =>
      simp only [Prod.mk.sizeOf_spec]
      omega
  have h3 : sizeOf fields < sizeOf (JVal.obj fields) := by
    simp
  omega

theorem sizeOf_objField_lt {r : JVal} {k : String} {v : JVal}
    (h : objField r k = some v) : sizeOf v < sizeOf r := by
  cases r with
  | obj fields =>
    simp only [objField, fieldLookup] at h
    cases hf : fields.find? (fun kv => kv.1 == k) with
    | none => rw [hf] at h; simp at h
    | some kv =>
      rw [hf] at h
      simp at h
      have hm : kv ∈ fields := List.mem_of_find?_eq_some hf
      have := sizeOf_field_lt hm
      rw [h] at this
      exact this
  | null => simp [objField] at h
  | undef => simp [objField] at h
  | bool b => simp [objField] at h
  | num n => simp [objField] at h
  | str s => simp [objField] at h
  | arr items => simp [objField] at h

theorem sizeOf_argsOf_lt_of_fn {r : JVal}
    (h : (fnNameOf r).isSome = true) : sizeOf (argsOf r) < sizeOf r := by
  have hobj : ∃ fields, r = JVal.obj fields := by
    unfold fnNameOf at h
    cases r with
    | obj fields => exact ⟨fields, rfl⟩
    | null => simp [objField] at h
    | undef => simp [objField] at h
    | bool b => simp [objField] at h
    | num n => simp [objField] at h
    | str s => simp [objField] at h
    | arr items => simp [objField] at h
  obtain ⟨fields, rfl⟩ := hobj
  have hsz : 1 ≤ sizeOf fields := list_sizeOf_pos fields
  unfold argsOf
  cases ho : objField (JVal.obj fields) "args" with
  | none =>
    show sizeOf ([] : List JVal) < sizeOf (JVal.obj fields)
    simp
    omega
  | some v =>
    have h1 := sizeOf_objField_lt ho
    cases v
    case arr xs =>
      have h2 : sizeOf (JVal.arr xs) = 1 + sizeOf xs := by simp
      show sizeOf xs < sizeOf (JVal.obj fields)
      omega
    all_goals show sizeOf ([] : List JVal) < sizeOf (JVal.obj fields)
    all_goals simp
    all_goals omega

mutual
/-- Embeds resolve of resolver.js, first matching case wins: a mapping
whose fn field names a context capability is applied to its recursively
resolved args in order; a string goes through resolveString; an array
resolves elementwise; any other mapping resolves each field value with
keys passed through; null and undefined resolvables make the source
throw a TypeError on the property access of its first line and are
returned unchanged here (no engine call site resolves them); any other
primitive is returned unchanged. The second component collects the
console warnings emitted during resolution, in order. -/
def resolve (ctx : Ctx) (data : JVal) (tp : TPath) (r : JVal) : JVal × List String :=
  if hfv : ((fnNameOf r).bind ctx).isSome then
    let rs := resolveList ctx data tp (argsOf r)
    (((fnNameOf r).bind ctx).get hfv (rs.map Prod.fst), (rs.map Prod.snd).flatten)
  else
    match r with
    | .str s => resolveString s data tp
    | .arr items =>
      let rs := resolveList ctx data tp items
      (JVal.arr (rs.map Prod.fst), (rs.map Prod.snd).flatten)
    | .obj fields =>
      let rs := resolveFields ctx data tp fields
      (JVal.obj (rs.map (fun kv => (kv.1, kv.2.1))),
        (rs.map (fun kv => kv.2.2)).flatten)
    | v => (v, [])
termination_by (sizeOf r, 1)
decreasing_by
  · refine Prod.Lex.left _ _ (sizeOf_argsOf_lt_of_fn ?_)
    cases hn : fnNameOf r with
    | none => rw [hn] at hfv; simp at hfv
    | some n => rfl
  · exact Prod.Lex.left _ _ (by simp)
  · exact Prod.Lex.left _ _ (by simp)

/-- Elementwise resolution of a resolvable list. -/
def resolveList (ctx : Ctx) (data : JVal) (tp : TPath) :
    List JVal → List (JVal × List String)
  | [] => []
  | x :: xs => resolve ctx data tp x :: resolveList ctx data tp xs
termination_by l => (sizeOf l, 0)
decreasing_by
  · exact Prod.Lex.left _ _ (by
      simp only [List.cons.sizeOf_spec]
      omega)
  · exact Prod.Lex.left _ _ (by
      simp only [List.cons.sizeOf_spec]
      omega)

/-- Fieldwise resolution of a resolvable mapping. -/
def resolveFields (ctx : Ctx) (data : JVal) (tp : TPath) :
    List (String × JVal) → List (String × (JVal × List String))
  | [] => []
  | kv :: rest => (kv.1, resolve ctx data tp kv.2) :: resolveFields ctx data tp rest
termination_by l => (sizeOf l, 0)
decreasing_by
  · exact Prod.Lex.left _ _ (by
      cases kv with
      | mk a b =>
        simp only [List.cons.sizeOf_spec, Prod.mk.sizeOf_spec]
        omega)
  · exact Prod.Lex.left _ _ (by
      simp only [List.cons.sizeOf_spec]
      omega)
end

theorem resolve_str (ctx : Ctx) (data : JVal) (tp : TPath) (s : String) :
    resolve ctx data tp (JVal.str s) = resolveString s data tp := by
  rw [resolve]
  simp [fnNameOf, objField]

theorem resolve_bool (ctx : Ctx) (data : JVal) (tp : TPath) (b : Bool) :
    resolve ctx data tp (JVal.bool b) = (JVal.bool b, []) := by
  rw [resolve]
  simp [fnNameOf, objField]

/-- Claim C2 (counterexample): resolving the dollar-value sentinel with
an absent target path returns the literal sentinel string itself, which
is not the absent value undefined; the claim that an absent value is
returned is false at this concrete input. -/
theorem resolveString_value_no_target_not_undef :
    (resolveString "$value" (JVal.obj [("flag", JVal.bool true)]) TPath.undef).1
        = JVal.str "$value" ∧
      JVal.str "$value" ≠ JVal.undef := by
  decide

/-- Claim C2 (amended): for every data tree and context, resolving the
literal sentinel string dollar-value with an absent target path is
non-fatal and reported: exactly the caller-configuration warning is
logged, and, the source having no early return after the warning, the
sentinel falls through the ref-path checks and resolves to the literal
string dollar-value itself (not undefined, and not some other value),
so evaluation continues. -/
theorem resolveString_value_no_target (data : JVal) (ctx : Ctx) :
    resolveString "$value" data TPath.undef
        = (JVal.str "$value", ["$value specified, but no targetPath defined"]) ∧
      resolve ctx data TPath.undef (JVal.str "$value")
        = (JVal.str "$value", ["$value specified, but no targetPath defined"]) := by
  refine ⟨rfl, ?_⟩
  rw [resolve_str]
  rfl

/-- The value of a resolvable at a numeric index, modelling the
JavaScript property access requiredNode at index: an array yields its
element, a string yields its character, an object is looked up by the
stringified index; primitives yield undefined (null and undefined
would make the source throw, and are never indexed by the engine). -/
def jsIndex : JVal → Nat → JVal
  | .arr xs, i => xs.getD i JVal.undef
  | .str s, i =>
    (match s.toList.get? i with
     | some c => JVal.str (String.mk [c])
     | none => JVal.undef)
  | .obj fields, i => (fieldLookup fields (toString i)).getD JVal.undef
  | _, _ => JVal.undef

/-- The message property of a value (undefined when absent; the source
would throw on null and undefined, which the engine never reaches for
well-formed required lists). -/
def messageOf (v : JVal) : JVal :=
  (objField v "message").getD JVal.undef

/-- Embeds resolveRequiredMessage of index.js. The source resolves the
required rule with targetPath this.path; the function is invoked as a
plain function, so this is not the enclosing validation context and
this.path is undefined: the resolver receives no target path, whatever
concrete path is being checked. When the resolved value is an array it
is reduced to the message of the first truthy entry, reading the
message off the unresolved required node at the same index, starting
from false. -/
def resolveRequiredMessage (requiredNode data : JVal) (ctx : Ctx) (path : TPath) : JVal :=
  match (resolve ctx data TPath.undef requiredNode).1 with
  | .arr results =>
    results.enum.foldl
      (fun memo ir =>
        if truthy ir.2 && !(truthy memo) then messageOf (jsIndex requiredNode ir.1)
        else memo)
      (JVal.bool false)
  | v => v

/-- Claim C9: the required resolvable is resolved with an undefined
target path whatever path is passed: the required message is
independent of the path under check, the dollar-value sentinel inside
a required rule resolves to the literal sentinel string rather than
the value at the checked path, and concretely differs from the value
lodash get would read at that path. -/
theorem resolveRequiredMessage_ignores_path
    (requiredNode data : JVal) (ctx : Ctx) (p q : TPath) :
    resolveRequiredMessage requiredNode data ctx p
        = resolveRequiredMessage requiredNode data ctx q ∧
      resolveRequiredMessage (JVal.str "$value") data ctx p = JVal.str "$value" ∧
      resolveRequiredMessage (JVal.str "$value")
          (JVal.obj [("a", JVal.num 1)]) ctx (TPath.list ["a"])
        ≠ lodashGetT (JVal.obj [("a", JVal.num 1)]) (TPath.list ["a"]) := by
  refine ⟨rfl, ?_, ?_⟩
  · unfold resolveRequiredMessage
    rw [resolve_str]
    rfl
  · unfold resolveRequiredMessage
    rw [resolve_str]
    show JVal.str "$value" ≠ JVal.num 1
    decide

/-- A configuration node as the engine reads one: a stable id, a node
type, a ref-path, optional precondition resolvables, an optional
required resolvable (or list of pairs), optional custom validations
and a decision output resolvable. Absent fields default like absent
JavaScript properties. -/
structure ConfigNode where
  id : String := ""
  type : String := ""
  path : String := ""
  preconditions : Option (List JVal) := none
  required : Option JVal := none
  validations : Option (List JVal) := none
  output : JVal := JVal.undef
deriving Repr, DecidableEq

/-- A workflow edge; the source fields from and to are keywords in
Lean and are embedded as edgeFrom and edgeTo. The when_input_is tag is
an arbitrary value used for truthiness (undefined when absent). -/
structure Edge where
  edgeFrom : String
  edgeTo : String
  when_input_is : JVal := JVal.undef
deriving Repr, DecidableEq

/-- The configuration index, an external collaborator of the engine:
lookup of a configuration node by ref-path string plus the node and
edge lists. -/
structure Config where
  getConfigNodeByPath : String → Option ConfigNode
  nodes : List ConfigNode := []
  edges : List Edge := []

/-- Embeds preconditionsMet of index.js: absent (or non-array)
preconditions are met by default (the source returns the boolean
true); otherwise the and-reduce over resolving each precondition
against the data, context and data path. The JavaScript and operator
returns its first falsy operand, so the reduce keeps the first falsy
resolved value and skips later resolutions. -/
def preconditionsMet (configNode : ConfigNode) (data : JVal) (ctx : Ctx)
    (dataPath : TPath) : JVal :=
  match configNode.preconditions with
  | none => JVal.bool true
  | some preconditions =>
    preconditions.foldl
      (fun memo precondition =>
        if truthy memo then (resolve ctx data dataPath precondition).1 else memo)
      (JVal.bool true)

/-- Embeds isBlank of index.js: undefined or the empty string. -/
def isBlank (value : JVal) : Bool :=
  value == JVal.undef || value == JVal.str ""

/-- Embeds dataNodeIsBlank of index.js: the value at the path is blank
when it is undefined or the empty string, or an array that is empty or
whose first element is blank. -/
def dataNodeIsBlank (path : TPath) (data : JVal) : Bool :=
  let value := lodashGetT data path
  if value == JVal.undef || value == JVal.str "" then true
  else
    match value with
    | .arr items => items.isEmpty || isBlank (items.getD 0 JVal.undef)
    | _ => false

/-- A validation message entry as pushed by the section validator: the
path rendered as a string and the message value. -/
structure Message where
  path : String
  message : JVal
deriving Repr, DecidableEq

/-- Embeds validateRequired of index.js: resolve the required message
(with the undefined this.path, see resolveRequiredMessage), and report
the path and message when the message is truthy, the node's
preconditions are met at the dotted path and the data at the path is
blank. Callers only reach this for nodes that carry a required rule;
the getD models the guarded property access. -/
def validateRequired (configNode : ConfigNode) (data : JVal) (ctx : Ctx)
    (path : String) : Option Message :=
  let requiredMessage :=
    resolveRequiredMessage (configNode.required.getD JVal.undef) data ctx (TPath.str path)
  if truthy requiredMessage
      && truthy (preconditionsMet configNode data ctx (TPath.str path))
      && dataNodeIsBlank (TPath.str path) data then
    some ⟨path, requiredMessage⟩
  else none

/-- First custom validation of the list whose resolved value is exactly
the boolean false, as the message entry the source builds from it. -/
def firstFailingValidation (ctx : Ctx) (data : JVal) (path : List String) :
    List JVal → Option Message
  | [] => none
  | v :: rest =>
    if (resolve ctx data (TPath.list path) v).1 == JVal.bool false then
      some ⟨String.intercalate "." path, messageOf v⟩
    else firstFailingValidation ctx data path rest

/-- Embeds validateCustom of index.js: an absent configuration node
defaults to the empty object (so no validations, hence no message); a
node with validations checks them, in declared order, only when its
preconditions are met at the path and the value at the path is not
blank, and reports the first validation resolving to exactly false. -/
def validateCustom (configNode : Option ConfigNode) (data : JVal) (ctx : Ctx)
    (path : List String) : Option Message :=
  match (configNode.getD {}).validations with
  | none => none
  | some validations =>
    if truthy (preconditionsMet (configNode.getD {}) data ctx (TPath.list path))
        && !(isBlank (lodashGet data path)) then
      firstFailingValidation ctx data path validations
    else none

/-- Embeds applyCustomValidationIfFails of index.js: push the custom
validation message unless the message array already holds an entry
whose path equals the dotted join of this path. -/
def applyCustomValidationIfFails (configNode : Option ConfigNode) (data : JVal)
    (ctx : Ctx) (path : List String) (messageArr : List Message) : List Message :=
  match validateCustom configNode data ctx path with
  | none => messageArr
  | some msg =>
    if (messageArr.find? (fun m => m.path == String.intercalate "." path)).isSome then
      messageArr
    else messageArr ++ [msg]

mutual
/-- Every node of the tree with its pre-order traversal path, in the
order the traverse package visits (root first, then each child subtree
in order). -/
def entriesOf : JVal → List (List String × JVal)
  | .arr items => ([], JVal.arr items) :: entriesOfArr 0 items
  | .obj fields => ([], JVal.obj fields) :: entriesOfObj fields
  | v => [([], v)]

/-- Entries of array elements, indices stringified from the given
start. -/
def entriesOfArr (i : Nat) : List JVal → List (List String × JVal)
  | [] => []
  | v :: rest =>
    (entriesOf v).map (fun pv => (toString i :: pv.1, pv.2)) ++ entriesOfArr (i + 1) rest

/-- Entries of object fields in field order. -/
def entriesOfObj : List (String × JVal) → List (List String × JVal)
  | [] => []
  | kv :: rest =>
    (entriesOf kv.2).map (fun pv => (kv.1 :: pv.1, pv.2)) ++ entriesOfObj rest
end

/-- A traverse leaf: a node with no children (primitives, the empty
array and the empty object). -/
def isLeafVal : JVal → Bool
  | .arr items => items.isEmpty
  | .obj fields => fields.isEmpty
  | _ => true

/-- The pre-order paths of the leaves of a tree. -/
def leafPaths (v : JVal) : List (List String) :=
  ((entriesOf v).filter (fun pv => isLeafVal pv.2)).map Prod.fst

/-- The custom-validation pass of evaluateSectionStates in index.js:
traverse the section's subtree of the data, and at every leaf look the
governing configuration node up by the canonical ref-path of the
absolute path (section id followed by the leaf path) and apply
applyCustomValidationIfFails, threading the message array that already
holds the required-check messages. -/
def customValidationPass (config : Config) (data : JVal) (ctx : Ctx)
    (sectionId : String) (messageArr : List Message) : List Message :=
  (leafPaths ((childLookup data sectionId).getD JVal.undef)).foldl
    (fun arr lp =>
      applyCustomValidationIfFails
        (config.getConfigNodeByPath (getRefPathForDataPath (sectionId :: lp)))
        data ctx (sectionId :: lp) arr)
    messageArr

theorem firstFailingValidation_path (ctx : Ctx) (data : JVal) (p : List String) :
    ∀ vs msg, firstFailingValidation ctx data p vs = some msg →
      msg.path = String.intercalate "." p
  | [], msg, h => by simp [firstFailingValidation] at h
  | v :: rest, msg, h => by
    rw [firstFailingValidation] at h
    by_cases hc : (resolve ctx data (TPath.list p) v).1 == JVal.bool false
    · rw [if_pos hc] at h
      cases h
      rfl
    · rw [if_neg hc] at h
      exact firstFailingValidation_path ctx data p rest msg h

theorem validateCustom_path {configNode : Option ConfigNode} {data : JVal} {ctx : Ctx}
    {p : List String} {msg : Message}
    (h : validateCustom configNode data ctx p = some msg) :
    msg.path = String.intercalate "." p := by
  unfold validateCustom at h
  split at h
  · simp at h
  · split at h
    · exact firstFailingValidation_path ctx data p _ msg h
    · simp at h

theorem applyCustom_filter_eq (node : Option ConfigNode) (data : JVal) (ctx : Ctx)
    (p : List String) (arr : List Message) (s : String)
    (hex : ∃ m ∈ arr, m.path = s) :
    (applyCustomValidationIfFails node data ctx p arr).filter (fun m => m.path == s)
        = arr.filter (fun m => m.path == s)
      ∧ ∃ m ∈ applyCustomValidationIfFails node data ctx p arr, m.path = s := by
  unfold applyCustomValidationIfFails
  cases hv : validateCustom node data ctx p with
  | none => exact ⟨rfl, hex⟩
  | some msg =>
    rcases hfind : arr.find? (fun m => m.path == String.intercalate "." p) with _ | m0
    · have hjoin : msg.path = String.intercalate "." p := validateCustom_path hv
      have hne : s ≠ String.intercalate "." p := by
        intro he
        obtain ⟨m, hm, hms⟩ := hex
        have hnone := List.find?_eq_none.mp hfind m hm
        apply hnone
        rw [hms, he] at *
        exact beq_self_eq_true _
      have hfalse : (arr.find? (fun m => m.path == String.intercalate "." p)).isSome
          = false := by
        rw [hfind]
        rfl
      rw [hfalse]
      show ((arr ++ [msg]).filter (fun m => m.path == s) = arr.filter (fun m => m.path == s))
        ∧ ∃ m ∈ arr ++ [msg], m.path = s
      constructor
      · rw [List.filter_append]
        have hmsg : [msg].filter (fun m => m.path == s) = [] := by
          have : (msg.path == s) = false := by
            rw [hjoin]
            exact beq_eq_false_iff_ne.mpr (fun he => hne he.symm)
          simp [List.filter, this]
        rw [hmsg, List.append_nil]
      · obtain ⟨m, hm, hms⟩ := hex
        exact ⟨m, List.mem_append_left _ hm, hms⟩
    · have htrue : (arr.find? (fun m => m.path == String.intercalate "." p)).isSome
          = true := by
        rw [hfind]
        rfl
      rw [htrue]
      exact ⟨rfl, hex⟩

theorem foldCustom_filter (data : JVal) (ctx : Ctx)
    (nodeF : List String → Option ConfigNode) (pathF : List String → List String) :
    ∀ (ps : List (List String)) (arr : List Message) (s : String),
      (∃ m ∈ arr, m.path = s) →
      ((ps.foldl
          (fun a lp => applyCustomValidationIfFails (nodeF lp) data ctx (pathF lp) a)
          arr).filter (fun m => m.path == s))
        = arr.filter (fun m => m.path == s)
  | [], arr, s, _ => rfl
  | lp :: rest, arr, s, hex => by
    rw [List.foldl_cons]
    obtain ⟨h1, h2⟩ := applyCustom_filter_eq (nodeF lp) data ctx (pathF lp) arr s hex
    rw [foldCustom_filter data ctx nodeF pathF rest _ s h2, h1]

/-- Claim C7: required precedence per path. If the message array built
by the required-check pass holds an entry whose path is the string s,
then after the custom-validation pass the entries with path s are
exactly those of the required pass: every custom failure at a leaf
whose dotted path equals s is suppressed by the find-by-path check in
applyCustomValidationIfFails, so only the required message appears for
that path. Conversely, when no entry with the dotted path of the leaf
is present and a custom validation fails there, its message is
appended. -/
theorem customValidationPass_required_precedence (config : Config) (data : JVal)
    (ctx : Ctx) (sectionId : String) (messageArr : List Message) (s : String)
    (hex : ∃ m ∈ messageArr, m.path = s) :
    ((customValidationPass config data ctx sectionId messageArr).filter
          (fun m => m.path == s)
        = messageArr.filter (fun m => m.path == s))
      ∧ ∀ (node : Option ConfigNode) (p : List String) (arr : List Message)
          (msg : Message),
          validateCustom node data ctx p = some msg →
          arr.find? (fun m => m.path == String.intercalate "." p) = none →
          applyCustomValidationIfFails node data ctx p arr = arr ++ [msg] := by
  constructor
  · unfold customValidationPass
    exact foldCustom_filter data ctx
      (fun lp => config.getConfigNodeByPath (getRefPathForDataPath (sectionId :: lp)))
      (fun lp => sectionId :: lp)
      (leafPaths ((childLookup data sectionId).getD JVal.undef)) messageArr s hex
  · intro node p arr msg hv hfind
    unfold applyCustomValidationIfFails
    rw [hv]
    have hfalse : (arr.find? (fun m => m.path == String.intercalate "." p)).isSome
        = false := by
      rw [hfind]
      rfl
    rw [hfalse]
    rfl

/-- Witness for claim C7 at a concrete input: the section s holds one
leaf at path s.a whose governing node carries a failing custom
validation, the required pass already recorded a message for the path
string s.a, and only that required message survives for the path. -/
theorem customValidationPass_required_precedence_witness :
    (∃ m ∈ [(⟨"s.a", JVal.str "required"⟩ : Message)], m.path = "s.a") ∧
      ((customValidationPass
            ⟨fun p => if p == "$.s.a" then
                some {validations :=
                  some [JVal.obj [("fn", JVal.str "fail"), ("message", JVal.str "custom")]]}
              else none, [], []⟩
            (JVal.obj [("s", JVal.obj [("a", JVal.str "v")])])
            (fun n => if n == "fail" then some (fun _ => JVal.bool false) else none)
            "s" [⟨"s.a", JVal.str "required"⟩]).filter (fun m => m.path == "s.a")
          = [(⟨"s.a", JVal.str "required"⟩ : Message)].filter (fun m => m.path == "s.a"))
        ∧ ∀ (node : Option ConfigNode) (p : List String) (arr : List Message)
            (msg : Message),
            validateCustom node (JVal.obj [("s", JVal.obj [("a", JVal.str "v")])])
                (fun n => if n == "fail" then some (fun _ => JVal.bool false) else none)
                p
              = some msg →
            arr.find? (fun m => m.path == String.intercalate "." p) = none →
            applyCustomValidationIfFails node
                (JVal.obj [("s", JVal.obj [("a", JVal.str "v")])])
                (fun n => if n == "fail" then some (fun _ => JVal.bool false) else none)
                p arr
              = arr ++ [msg] :=
  ⟨by decide,
    customValidationPass_required_precedence _ _ _ _ _ _ (by decide)⟩

/-- One-key assignment in an object field list, as assignValue does on
an object: an existing binding is replaced in place (the first, and in
a JavaScript object only, binding of the key), a missing key is
appended at the end. -/
def setField : List (String × JVal) → String → JVal → List (String × JVal)
  | [], k, v => [(k, v)]
  | kv :: rest, k, v =>
    if kv.1 == k then (k, v) :: rest else kv :: setField rest k v

/-- One-slot assignment in an array, as assignValue does on an array:
an index below the length replaces the element in place; one beyond
the end extends the array with undefined holes. -/
def setIdx (items : List JVal) (n : Nat) (v : JVal) : List JVal :=
  if n < items.length then items.set n v
  else items ++ List.replicate (n - items.length) JVal.undef ++ [v]

/-- lodash isObject over tree values: objects and arrays. -/
def isContainer : JVal → Bool
  | .obj _ => true
  | .arr _ => true
  | _ => false

/-- One-level assignment of lodash assignValue: object fields are set
by key, array slots by canonical index (a non-index key on an array
would set a non-element property, which the array model cannot hold
and which the engine never produces); assignment into any other value
leaves it unchanged (the source only assigns into containers). -/
def assignChild : JVal → String → JVal → JVal
  | .obj fields, k, v => JVal.obj (setField fields k v)
  | .arr items, k, v =>
    if isIndexKey k then JVal.arr (setIdx items (keyToNat k) v) else JVal.arr items
  | t, _, _ => t

/-- The walk of lodash baseSet: at every step short of the last,
descend into the existing child when it is an object or array,
otherwise replace it with a fresh array or object chosen by whether
the next key is an index; at the last key assign the value. An empty
path leaves the object unchanged (the loop body never runs). -/
def baseSet : JVal → List String → JVal → JVal
  | t, [], _ => t
  | t, [k], v => assignChild t k v
  | t, k :: k2 :: rest, v =>
    let child := (childLookup t k).getD JVal.undef
    let next := if isContainer child then child
      else (if isIndexKey k2 then JVal.arr [] else JVal.obj [])
    assignChild t k (baseSet next (k2 :: rest) v)

/-- Embeds lodash set as pruneData uses it: a non-object receiver is
returned unchanged, otherwise the baseSet walk runs. -/
def lodashSet (t : JVal) (path : List String) (v : JVal) : JVal :=
  if isContainer t then baseSet t path v else t

/-- Structural lookup of the value at a concrete path: some value when
every step exists, none otherwise. -/
def valueAt : JVal → List String → Option JVal
  | v, [] => some v
  | v, k :: rest => (childLookup v k).bind (fun c => valueAt c rest)

theorem container_of_childLookup {t : JVal} {k : String}
    (h : (childLookup t k).isSome = true) : isContainer t = true := by
  cases t <;> simp [childLookup, isContainer] at h ⊢

theorem fieldLookup_setField_eq (fields : List (String × JVal)) (k : String) (v : JVal) :
    fieldLookup (setField fields k v) k = some v := by
  induction fields with
  | nil => simp [setField, fieldLookup, List.find?]
  | cons kv rest ih =>
    cases hk : kv.1 == k with
    | true => simp [setField, hk, fieldLookup, List.find?]
    | false =>
      simp only [setField, hk, Bool.false_eq_true, if_false]
      simp only [fieldLookup, List.find?, hk] at ih ⊢
      exact ih

theorem fieldLookup_setField_ne (fields : List (String × JVal)) (k k2 : String)
    (v : JVal) (hne : k2 ≠ k) :
    fieldLookup (setField fields k v) k2 = fieldLookup fields k2 := by
  have h2 : (k == k2) = false := beq_eq_false_iff_ne.mpr (fun he => hne he.symm)
  induction fields with
  | nil => simp [setField, fieldLookup, List.find?, h2]
  | cons kv rest ih =>
    cases hk : kv.1 == k with
    | true =>
      have hkk : kv.1 = k := by simpa using hk
      have h3 : (kv.1 == k2) = false := by rw [hkk]; exact h2
      simp [setField, hk, fieldLookup, List.find?, h2, h3]
    | false =>
      simp only [setField, hk, Bool.false_eq_true, if_false]
      cases h4 : kv.1 == k2 with
      | true => simp [fieldLookup, List.find?, h4]
      | false =>
        simp only [fieldLookup, List.find?, h4] at ih ⊢
        exact ih

theorem setField_keys (fields : List (String × JVal)) (k : String) (v : JVal)
    (h : (fieldLookup fields k).isSome = true) :
    (setField fields k v).map Prod.fst = fields.map Prod.fst := by
  induction fields with
  | nil => simp [fieldLookup, List.find?] at h
  | cons kv rest ih =>
    cases hk : kv.1 == k with
    | true =>
      have hkk : kv.1 = k := by simpa using hk
      simp [setField, hk, hkk]
    | false =>
      have h2 : (fieldLookup rest k).isSome = true := by
        simpa [fieldLookup, List.find?, hk] using h
      simp only [setField, hk, Bool.false_eq_true, if_false, List.map_cons]
      rw [ih h2]

theorem setIdx_length (items : List JVal) (n : Nat) (v : JVal) (h : n < items.length) :
    (setIdx items n v).length = items.length := by
  simp [setIdx, h]

theorem setIdx_get_eq (items : List JVal) (n : Nat) (v : JVal) (h : n < items.length) :
    (setIdx items n v).get? n = some v := by
  simp [setIdx, h, List.get?_eq_getElem?, List.getElem?_set_self]

theorem setIdx_get_ne (items : List JVal) (n j : Nat) (v : JVal)
    (h : n < items.length) (hj : j ≠ n) :
    (setIdx items n v).get? j = items.get? j := by
  simp only [setIdx, h, if_true, List.get?_eq_getElem?]
  rw [List.getElem?_set_ne (by omega)]

theorem childLookup_assignChild_eq {t : JVal} {k : String} (X : JVal)
    (h : (childLookup t k).isSome = true) :
    childLookup (assignChild t k X) k = some X := by
  cases t with
  | obj fields =>
    simp only [assignChild, childLookup]
    exact fieldLookup_setField_eq fields k X
  | arr items =>
    simp only [childLookup] at h
    cases hidx : isIndexKey k with
    | false => rw [hidx] at h; simp at h
    | true =>
      rw [hidx] at h
      simp only [if_true] at h
      have hlt : keyToNat k < items.length := by
        cases hg : items.get? (keyToNat k) with
        | none =>
          rw [hg] at h
          simp at h
        | some c =>
          have := List.get?_eq_some.mp hg
          obtain ⟨hl, _⟩ := this
          exact hl
      simp only [assignChild, hidx, if_true, childLookup]
      exact setIdx_get_eq items (keyToNat k) X hlt
  | null => simp [childLookup] at h
  | undef => simp [childLookup] at h
  | bool b => simp [childLookup] at h
  | num n => simp [childLookup] at h
  | str s => simp [childLookup] at h

theorem container_of_valueAt_cons {t : JVal} {k : String} {rest : List String} {w : JVal}
    (h : valueAt t (k :: rest) = some w) : isContainer t = true := by
  simp only [valueAt] at h
  cases hc : childLookup t k with
  | none => rw [hc] at h; simp at h
  | some c => exact container_of_childLookup (by rw [hc]; rfl)

theorem baseSet_get_parent :
    ∀ (p : List String) (tree parent : JVal) (k : String) (v : JVal),
      valueAt tree p = some parent →
      (childLookup parent k).isSome = true →
      valueAt (baseSet tree (p ++ [k]) v) p = some (assignChild parent k v)
  | [], tree, parent, k, v, hpar, _ => by
    simp only [valueAt] at hpar
    cases hpar
    simp [baseSet, valueAt]
  | [k0], tree, parent, k, v, hpar, hk => by
    simp only [valueAt] at hpar
    cases hc : childLookup tree k0 with
    | none => rw [hc] at hpar; simp at hpar
    | some c =>
      rw [hc] at hpar
      simp only [Option.some_bind] at hpar
      cases hpar
      have hcc : isContainer parent = true := container_of_childLookup hk
      show valueAt (baseSet tree [k0, k] v) [k0] = some (assignChild parent k v)
      rw [baseSet]
      simp only [hc, Option.getD_some, hcc, if_true]
      have hb : baseSet parent [k] v = assignChild parent k v := by rw [baseSet]
      rw [hb]
      simp only [valueAt]
      rw [childLookup_assignChild_eq (assignChild parent k v) (by rw [hc]; rfl)]
      rfl
  | k0 :: k1 :: p, tree, parent, k, v, hpar, hk => by
    simp only [valueAt] at hpar
    cases hc : childLookup tree k0 with
    | none => rw [hc] at hpar; simp at hpar
    | some c =>
      rw [hc] at hpar
      simp only [Option.some_bind] at hpar
      have hcc : isContainer c = true := container_of_valueAt_cons hpar
      have ih := baseSet_get_parent (k1 :: p) c parent k v hpar hk
      show valueAt (baseSet tree (k0 :: k1 :: (p ++ [k])) v) (k0 :: k1 :: p)
        = some (assignChild parent k v)
      rw [baseSet]
      simp only [hc, Option.getD_some, hcc, if_true]
      simp only [valueAt]
      rw [childLookup_assignChild_eq (baseSet c (k1 :: (p ++ [k])) v) (by rw [hc]; rfl)]
      simpa [valueAt] using ih

theorem valueAt_append (p : List String) (t : JVal) (k : String) :
    valueAt t (p ++ [k]) = (valueAt t p).bind (fun c => childLookup c k) := by
  induction p generalizing t with
  | nil =>
    simp only [List.nil_append, valueAt, Option.some_bind]
    cases childLookup t k <;> simp [valueAt]
  | cons k0 rest ih =>
    simp only [List.cons_append, valueAt]
    cases childLookup t k0 with
    | none => simp
    | some c => simpa using ih c

/-- Claim C10: pruning clears a path by assigning undefined at the
exact slot rather than deleting it structurally. For every tree, every
existing parent path and every key existing in the parent container,
the lodash set call of pruneData leaves the tree with undefined at the
cleared slot and the parent container's shape intact: an enclosing
object keeps exactly its keys in order with other keys bound as
before, and an enclosing array keeps its length and every sibling slot
unchanged. -/
theorem pruneSet_clears_in_place (tree parent : JVal) (p : List String) (k : String)
    (hpar : valueAt tree p = some parent)
    (hk : (childLookup parent k).isSome = true) :
    valueAt (lodashSet tree (p ++ [k]) JVal.undef) (p ++ [k]) = some JVal.undef
      ∧ valueAt (lodashSet tree (p ++ [k]) JVal.undef) p
          = some (assignChild parent k JVal.undef)
      ∧ (∀ fields, parent = JVal.obj fields →
          assignChild parent k JVal.undef = JVal.obj (setField fields k JVal.undef)
            ∧ (setField fields k JVal.undef).map Prod.fst = fields.map Prod.fst
            ∧ ∀ k2, k2 ≠ k →
                fieldLookup (setField fields k JVal.undef) k2 = fieldLookup fields k2)
      ∧ (∀ items, parent = JVal.arr items →
          assignChild parent k JVal.undef
              = JVal.arr (setIdx items (keyToNat k) JVal.undef)
            ∧ (setIdx items (keyToNat k) JVal.undef).length = items.length
            ∧ ∀ j, j ≠ keyToNat k →
                (setIdx items (keyToNat k) JVal.undef).get? j = items.get? j) := by
  have ht : isContainer tree = true := by
    cases p with
    | nil =>
      simp only [valueAt] at hpar
      cases hpar
      exact container_of_childLookup hk
    | cons k0 rest => exact container_of_valueAt_cons hpar
  have hset : lodashSet tree (p ++ [k]) JVal.undef = baseSet tree (p ++ [k]) JVal.undef := by
    simp [lodashSet, ht]
  have h2 : valueAt (lodashSet tree (p ++ [k]) JVal.undef) p
      = some (assignChild parent k JVal.undef) := by
    rw [hset]
    exact baseSet_get_parent p tree parent k JVal.undef hpar hk
  refine ⟨?_, h2, ?_, ?_⟩
  · rw [valueAt_append, h2]
    simp only [Option.some_bind]
    exact childLookup_assignChild_eq JVal.undef hk
  · intro fields hpf
    subst hpf
    have hfl : (fieldLookup fields k).isSome = true := hk
    exact ⟨rfl, setField_keys fields k JVal.undef hfl,
      fun k2 hne => fieldLookup_setField_ne fields k k2 JVal.undef hne⟩
  · intro items hpa
    subst hpa
    simp only [childLookup] at hk
    cases hidx : isIndexKey k with
    | false => rw [hidx] at hk; simp at hk
    | true =>
      rw [hidx] at hk
      simp only [if_true] at hk
      have hlt : keyToNat k < items.length := by
        cases hg : items.get? (keyToNat k) with
        | none => rw [hg] at hk; simp at hk
        | some c =>
          obtain ⟨hl, _⟩ := List.get?_eq_some.mp hg
          exact hl
      refine ⟨by simp [assignChild, hidx], setIdx_length items (keyToNat k) JVal.undef hlt,
        fun j hj => setIdx_get_ne items (keyToNat k) j JVal.undef hlt hj⟩

/-- Witness for claim C10 at a concrete input: clearing index 0 inside
the two-element array at key a keeps the array length, the sibling
element and the enclosing object intact, with undefined in the cleared
slot. -/
theorem pruneSet_clears_in_place_witness :
    valueAt (lodashSet (JVal.obj [("a", JVal.arr [JVal.num 1, JVal.num 2])])
          (["a"] ++ ["0"]) JVal.undef) (["a"] ++ ["0"])
        = some JVal.undef
      ∧ valueAt (lodashSet (JVal.obj [("a", JVal.arr [JVal.num 1, JVal.num 2])])
            (["a"] ++ ["0"]) JVal.undef) ["a"]
          = some (assignChild (JVal.arr [JVal.num 1, JVal.num 2]) "0" JVal.undef)
      ∧ (∀ fields, JVal.arr [JVal.num 1, JVal.num 2] = JVal.obj fields →
          assignChild (JVal.arr [JVal.num 1, JVal.num 2]) "0" JVal.undef
              = JVal.obj (setField fields "0" JVal.undef)
            ∧ (setField fields "0" JVal.undef).map Prod.fst = fields.map Prod.fst
            ∧ ∀ k2, k2 ≠ "0" →
                fieldLookup (setField fields "0" JVal.undef) k2 = fieldLookup fields k2)
      ∧ (∀ items, JVal.arr [JVal.num 1, JVal.num 2] = JVal.arr items →
          assignChild (JVal.arr [JVal.num 1, JVal.num 2]) "0" JVal.undef
              = JVal.arr (setIdx items (keyToNat "0") JVal.undef)
            ∧ (setIdx items (keyToNat "0") JVal.undef).length = items.length
            ∧ ∀ j, j ≠ keyToNat "0" →
                (setIdx items (keyToNat "0") JVal.undef).get? j = items.get? j) :=
  pruneSet_clears_in_place (JVal.obj [("a", JVal.arr [JVal.num 1, JVal.num 2])])
    (JVal.arr [JVal.num 1, JVal.num 2]) ["a"] "0" (by decide) (by decide)

/-- The pruning state: the caller's original data object (only ever
read) and the engine's deep copy (the only write target). The
JavaScript mutation of the copy is embedded as explicit state passing
so that the write target of every lodash set call is visible in the
type. -/
structure PruneState where
  orig : JVal
  result : JVal
deriving Repr, DecidableEq

/-- lodash cloneDeep of an immutable tree value: the same value. The
point of the deep copy in JavaScript is breaking aliasing with the
caller's object, which the state embedding renders as the separate
orig and result components. -/
def cloneDeep (v : JVal) : JVal := v

/-- The forEach over one dependency's concrete paths in pruneData:
each path whose preconditions (evaluated against the ORIGINAL data)
are unmet is cleared in the result copy. A missing configuration node
makes the source throw on the property access inside preconditionsMet
as soon as a path is processed (none). -/
def pruneClearFold (config : Config) (ctx : Ctx) (dep : String) (origData : JVal) :
    List (List String) → Option PruneState → Option PruneState
  | [], acc => acc
  | path :: rest, acc =>
    pruneClearFold config ctx dep origData rest
      (match acc, config.getConfigNodeByPath dep with
       | none, _ => none
       | some _, none => none
       | some s2, some node =>
         if truthy (preconditionsMet node origData ctx (TPath.list path)) then some s2
         else some { s2 with result := lodashSet s2.result path JVal.undef })

/-- One dependency step of pruneData: find all concrete paths matching
the dependency's ref path in the original data and fold the clears
over them. -/
def pruneStep (config : Config) (ctx : Ctx) (st : Option PruneState) (dep : String) :
    Option PruneState :=
  match st with
  | none => none
  | some s =>
    pruneClearFold config ctx dep s.orig (getDataPathsForRefPath dep s.orig) (some s)

/-- Embeds pruneData of index.js with the mutation made explicit: the
result starts as a deep copy of the input made once, every dependency
in precondition order contributes its clears, and the state carries
the untouched original alongside. -/
def pruneRun (data : JVal) (config : Config) (depOrder : List String) (ctx : Ctx) :
    Option PruneState :=
  depOrder.foldl (pruneStep config ctx) (some ⟨data, cloneDeep data⟩)

/-- The value pruneData returns: the result copy of the final state. -/
def pruneData (data : JVal) (config : Config) (depOrder : List String) (ctx : Ctx) :
    Option JVal :=
  (pruneRun data config depOrder ctx).map (fun s => s.result)

/-- The paths one dependency clears, computed from the configuration,
the ORIGINAL data and the context alone: all concrete paths matching
the dependency's ref path in the data whose preconditions are unmet
there. Nothing of the partially pruned result enters this function. -/
def depClears (config : Config) (data : JVal) (ctx : Ctx) (dep : String) :
    Option (List (List String)) :=
  match config.getConfigNodeByPath dep with
  | none => if (getDataPathsForRefPath dep data).isEmpty then some [] else none
  | some node =>
    some ((getDataPathsForRefPath dep data).filter
      (fun p => !(truthy (preconditionsMet node data ctx (TPath.list p)))))

/-- The concatenated clears of a dependency order, each computed
independently against the original data. -/
def allClears (config : Config) (data : JVal) (ctx : Ctx) :
    List String → Option (List (List String))
  | [] => some []
  | dep :: rest =>
    match depClears config data ctx dep, allClears config data ctx rest with
    | some ps, some rest2 => some (ps ++ rest2)
    | _, _ => none

theorem pruneClearFold_none (config : Config) (ctx : Ctx) (dep : String)
    (origData : JVal) :
    ∀ paths, pruneClearFold config ctx dep origData paths none = none
  | [] => rfl
  | _ :: rest => pruneClearFold_none config ctx dep origData rest

theorem pruneClearFold_eq (config : Config) (ctx : Ctx) (dep : String)
    (origData : JVal) :
    ∀ (paths : List (List String)) (s : PruneState),
      pruneClearFold config ctx dep origData paths (some s)
        = match config.getConfigNodeByPath dep with
          | none => if paths.isEmpty then some s else none
          | some node =>
            some { s with result :=
              ((paths.filter
                  (fun p => !(truthy (preconditionsMet node origData ctx (TPath.list p))))).foldl
                (fun r p => lodashSet r p JVal.undef) s.result) }
  | [], s => by
    cases hn : config.getConfigNodeByPath dep with
    | none => simp [pruneClearFold, hn]
    | some node => simp [pruneClearFold, hn]
  | path :: rest, s => by
    cases hn : config.getConfigNodeByPath dep with
    | none =>
      show pruneClearFold config ctx dep origData rest
          (match some s, config.getConfigNodeByPath dep with
           | none, _ => none
           | some _, none => none
           | some s2, some node =>
             if truthy (preconditionsMet node origData ctx (TPath.list path)) then some s2
             else some { s2 with result := lodashSet s2.result path JVal.undef })
        = _
      rw [hn]
      simp only []
      rw [pruneClearFold_none config ctx dep origData rest]
      simp [hn]
    | some node =>
      show pruneClearFold config ctx dep origData rest
          (match some s, config.getConfigNodeByPath dep with
           | none, _ => none
           | some _, none => none
           | some s2, some node =>
             if truthy (preconditionsMet node origData ctx (TPath.list path)) then some s2
             else some { s2 with result := lodashSet s2.result path JVal.undef })
        = _
      rw [hn]
      cases hpre : truthy (preconditionsMet node origData ctx (TPath.list path)) with
      | true =>
        show pruneClearFold config ctx dep origData rest
            (if truthy (preconditionsMet node origData ctx (TPath.list path)) = true
              then some s
              else some { orig := s.orig, result := lodashSet s.result path JVal.undef })
          = _
        rw [if_pos hpre]
        rw [pruneClearFold_eq config ctx dep origData rest s]
        simp [hn, List.filter_cons, hpre]
      | false =>
        show pruneClearFold config ctx dep origData rest
            (if truthy (preconditionsMet node origData ctx (TPath.list path)) = true
              then some s
              else some { orig := s.orig, result := lodashSet s.result path JVal.undef })
          = _
        rw [if_neg (by simp [hpre])]
        rw [pruneClearFold_eq config ctx dep origData rest
          { s with result := lodashSet s.result path JVal.undef }]
        simp [hn, List.filter_cons, hpre]

theorem pruneFold_none (config : Config) (ctx : Ctx) :
    ∀ order : List String, order.foldl (pruneStep config ctx) none = none
  | [] => rfl
  | _ :: rest => pruneFold_none config ctx rest

theorem pruneFoldOrder (config : Config) (ctx : Ctx) (data : JVal) :
    ∀ (order : List String) (r : JVal),
      order.foldl (pruneStep config ctx) (some ⟨data, r⟩)
        = (allClears config data ctx order).map
            (fun ps => ⟨data, ps.foldl (fun acc p => lodashSet acc p JVal.undef) r⟩)
  | [], r => by simp [allClears]
  | dep :: rest, r => by
    rw [List.foldl_cons]
    have hstep : pruneStep config ctx (some ⟨data, r⟩) dep
        = (depClears config data ctx dep).map
            (fun ps => (⟨data, ps.foldl (fun acc p => lodashSet acc p JVal.undef) r⟩
              : PruneState)) := by
      show pruneClearFold config ctx dep data (getDataPathsForRefPath dep data)
          (some ⟨data, r⟩) = _
      rw [pruneClearFold_eq config ctx dep data (getDataPathsForRefPath dep data)
        ⟨data, r⟩]
      unfold depClears
      cases hn : config.getConfigNodeByPath dep with
      | none =>
        cases he : (getDataPathsForRefPath dep data).isEmpty with
        | true => simp [he]
        | false => simp [he]
      | some node => simp
    rw [hstep]
    cases hd : depClears config data ctx dep with
    | none =>
      simp only [Option.map]
      rw [pruneFold_none config ctx rest]
      have hac : allClears config data ctx (dep :: rest) = none := by
        rw [allClears, hd]
      rw [hac]
    | some ps =>
      simp only [Option.map]
      rw [pruneFoldOrder config ctx data rest
        (ps.foldl (fun acc p => lodashSet acc p JVal.undef) r)]
      have hcons : allClears config data ctx (dep :: rest)
          = match allClears config data ctx rest with
            | some rest2 => some (ps ++ rest2)
            | none => none := by
        rw [allClears, hd]
        cases allClears config data ctx rest <;> rfl
      rw [hcons]
      cases ha : allClears config data ctx rest with
      | none => rfl
      | some rest2 =>
        simp only [Option.map]
        rw [List.foldl_append]

/-- Claim C4: the pruning pass computes every node's matching concrete
paths and every precondition value against the original input
snapshot, never against the partially pruned intermediate result. The
run over any dependency order equals first computing, for each
dependency independently, its cleared-path set from the configuration,
the original data and the context alone (depClears mentions no
intermediate state), and then folding all those clears over the copy:
clearing one node's data can change neither which concrete paths
another node's pattern matches nor what its precondition sees. -/
theorem pruneData_eq_snapshot (data : JVal) (config : Config) (ctx : Ctx)
    (order : List String) :
    pruneData data config order ctx
      = (allClears config data ctx order).map
          (fun ps => ps.foldl (fun r p => lodashSet r p JVal.undef) (cloneDeep data)) := by
  unfold pruneData pruneRun
  rw [pruneFoldOrder config ctx data order (cloneDeep data)]
  cases allClears config data ctx order <;> rfl

/-- Claim C8: the engine never mutates the caller's data argument. The
pruning pass deep-copies the input once at the start and every
clearing write targets the result component of the state; whatever the
configuration, order and context, the original component of the final
state is the caller's input unchanged. The downstream passes of
getWorkflowState are read-only functions of the pruned copy. -/
theorem pruneRun_preserves_orig (data : JVal) (config : Config)
    (depOrder : List String) (ctx : Ctx) (st : PruneState)
    (h : pruneRun data config depOrder ctx = some st) :
    st.orig = data := by
  unfold pruneRun at h
  rw [pruneFoldOrder config ctx data depOrder (cloneDeep data)] at h
  cases ha : allClears config data ctx depOrder with
  | none =>
    rw [ha] at h
    exact Option.noConfusion h
  | some ps =>
    rw [ha] at h
    simp only [Option.map, Option.some.injEq] at h
    rw [← h]

/-- Witness for claim C8 at a concrete input: a one-dependency order
whose node has no preconditions runs the whole pass and leaves the
original component untouched. -/
theorem pruneRun_preserves_orig_witness :
    (pruneRun (JVal.obj [("a", JVal.num 1)])
          ⟨fun p => if p == "$.a" then some {path := "$.a"} else none, [], []⟩
          ["$.a"] (fun _ => none)).getD ⟨JVal.null, JVal.null⟩
        = ⟨JVal.obj [("a", JVal.num 1)], JVal.obj [("a", JVal.num 1)]⟩
      ∧ (⟨JVal.obj [("a", JVal.num 1)], JVal.obj [("a", JVal.num 1)]⟩
          : PruneState).orig = JVal.obj [("a", JVal.num 1)] :=
  ⟨rfl,
    pruneRun_preserves_orig (JVal.obj [("a", JVal.num 1)])
      ⟨fun p => if p == "$.a" then some {path := "$.a"} else none, [], []⟩
      ["$.a"] (fun _ => none)
      ⟨JVal.obj [("a", JVal.num 1)], JVal.obj [("a", JVal.num 1)]⟩ rfl⟩

/-- A section state as evaluateSectionStates produces one: the
validity verdict string and the recorded messages. -/
structure SectionSt where
  status : String
  validationMessages : List Message := []
deriving Repr, DecidableEq

/-- The running state of the node-status reduce of evaluateEdgeStates:
the statuses object (property lookup of an unwritten key yields
undefined) and the frontier flag. -/
structure GraphAcc where
  statuses : String → JVal
  frontierFound : Bool

/-- Property update memo at nodePath set to v. -/
def updateMap (m : String → JVal) (k : String) (v : JVal) : String → JVal :=
  fun s => if s = k then v else m s

/-- Embeds isTerminalNodePath of index.js. -/
def isTerminalNodePath (path : String) : Bool :=
  path == "START" || path == "END"

/-- One step of the node-status reduce of evaluateEdgeStates. A
terminal node is always active (checked first). With the frontier
found, any other node is inactive without its configuration node being
dereferenced or its rule evaluated (the source looks the node up just
before this check but only dereferences it after, and the lookup is
pure, so the frontier branch is checked first here). Otherwise a
missing configuration node makes the source throw on the type access
(none); an input_section node is active exactly when its section state
is valid and otherwise goes inactive and raises the frontier (a
missing section state also throws: none); a decision node stores its
resolved output value, evaluated with no target path; any other node
type makes the source's reduce callback return undefined, destroying
the memo for the rest of the reduce (none). -/
def nodeStatusStep (config : Config) (data : JVal) (ctx : Ctx)
    (sectionStates : String → Option SectionSt)
    (acc : Option GraphAcc) (nodePath : String) : Option GraphAcc :=
  match acc with
  | none => none
  | some a =>
    if isTerminalNodePath nodePath then
      some { a with statuses := updateMap a.statuses nodePath (JVal.str "active") }
    else
      if a.frontierFound then
        some { a with statuses := updateMap a.statuses nodePath (JVal.str "inactive") }
      else
        match config.getConfigNodeByPath ("$." ++ nodePath) with
        | none => none
        | some node =>
          if node.type == "input_section" then
            match sectionStates (jsReplaceOnce node.id "$.") with
            | none => none
            | some st =>
              if st.status == "valid" then
                some { a with
                  statuses := updateMap a.statuses nodePath (JVal.str "active") }
              else
                some ⟨updateMap a.statuses nodePath (JVal.str "inactive"), true⟩
          else if node.type == "decision" then
            some { a with
              statuses :=
                updateMap a.statuses nodePath (resolve ctx data TPath.undef node.output).1 }
          else none

/-- The node-status reduce of evaluateEdgeStates over the node
evaluation order, from the empty memo with no frontier. -/
def nodeStatuses (config : Config) (data : JVal) (ctx : Ctx)
    (sectionStates : String → Option SectionSt) (order : List String) :
    Option GraphAcc :=
  order.foldl (nodeStatusStep config data ctx sectionStates)
    (some ⟨fun _ => JVal.undef, false⟩)

/-- An edge with its computed status appended. -/
structure EdgeState where
  edgeFrom : String
  edgeTo : String
  when_input_is : JVal
  status : JVal
deriving Repr, DecidableEq

/-- The edge mapping of evaluateEdgeStates: the base status is the
from-node's status; when the from node is a decision node and the
status is not the literal inactive string, the status is recomputed
from the truthiness of the stored decision output against the
truthiness of the edge's when_input_is tag. A missing from node
defaults to the empty object. -/
def edgeStatus (config : Config) (statuses : String → JVal) (e : Edge) : EdgeState :=
  let status := statuses e.edgeFrom
  let fromNode := (config.getConfigNodeByPath ("$." ++ e.edgeFrom)).getD {}
  let status2 :=
    if fromNode.type == "decision" && !(status == JVal.str "inactive") then
      (if truthy status then
        (if truthy e.when_input_is then JVal.str "active" else JVal.str "inactive")
      else
        (if truthy e.when_input_is then JVal.str "inactive" else JVal.str "active"))
    else status
  ⟨e.edgeFrom, e.edgeTo, e.when_input_is, status2⟩

/-- Embeds evaluateEdgeStates of index.js, parameterized by the node
evaluation order (the source computes it as the reversed topological
sort of the edge dependencies, END depending on START, via the
external toposort package; the claims hold for every order). -/
def evaluateEdgeStatesWith (config : Config) (data : JVal) (ctx : Ctx)
    (sectionStates : String → Option SectionSt) (order : List String) :
    Option (List EdgeState) :=
  (nodeStatuses config data ctx sectionStates order).map
    (fun acc => config.edges.map (edgeStatus config acc.statuses))

theorem graphFold_none (config : Config) (data : JVal) (ctx : Ctx)
    (sst : String → Option SectionSt) :
    ∀ l : List String,
      l.foldl (nodeStatusStep config data ctx sst) none = none
  | [] => rfl
  | _ :: rest => graphFold_none config data ctx sst rest

theorem nodeStatusStep_other (config : Config) (data : JVal) (ctx : Ctx)
    (sst : String → Option SectionSt) (a a2 : GraphAcc) (n : String)
    (h : nodeStatusStep config data ctx sst (some a) n = some a2) :
    ∀ t, t ≠ n → a2.statuses t = a.statuses t := by
  intro t ht
  simp only [nodeStatusStep] at h
  split at h
  · cases h
    simp [updateMap, ht]
  · split at h
    · cases h
      simp [updateMap, ht]
    · split at h
      · exact Option.noConfusion h
      · split at h
        · split at h
          · exact Option.noConfusion h
          · split at h
            · cases h
              simp [updateMap, ht]
            · cases h
              simp [updateMap, ht]
        · split at h
          · cases h
            simp [updateMap, ht]
          · exact Option.noConfusion h

theorem nodeStatusStep_terminal (config : Config) (data : JVal) (ctx : Ctx)
    (sst : String → Option SectionSt) (a : GraphAcc) (n : String)
    (hn : isTerminalNodePath n = true) :
    nodeStatusStep config data ctx sst (some a) n
      = some ⟨updateMap a.statuses n (JVal.str "active"), a.frontierFound⟩ := by
  simp only [nodeStatusStep]
  rw [if_pos hn]

theorem nodeStatusStep_frontier (config : Config) (data : JVal) (ctx : Ctx)
    (sst : String → Option SectionSt) (a : GraphAcc) (n : String)
    (hf : a.frontierFound = true) :
    nodeStatusStep config data ctx sst (some a) n
      = some ⟨updateMap a.statuses n
            (if isTerminalNodePath n then JVal.str "active" else JVal.str "inactive"),
          a.frontierFound⟩ := by
  simp only [nodeStatusStep]
  cases ht : isTerminalNodePath n with
  | true => simp
  | false => simp [hf]

theorem nodeStatuses_fold_frontier (config : Config) (data : JVal) (ctx : Ctx)
    (sst : String → Option SectionSt) :
    ∀ (l : List String) (a : GraphAcc), a.frontierFound = true →
      ∃ a2, l.foldl (nodeStatusStep config data ctx sst) (some a) = some a2
        ∧ a2.frontierFound = true
        ∧ (∀ t, t ∈ l → a2.statuses t
            = (if isTerminalNodePath t then JVal.str "active" else JVal.str "inactive"))
        ∧ (∀ t, ¬ t ∈ l → a2.statuses t = a.statuses t)
  | [], a, hf => ⟨a, rfl, hf, by simp, fun t _ => rfl⟩
  | n :: rest, a, hf => by
    rw [List.foldl_cons, nodeStatusStep_frontier config data ctx sst a n hf]
    obtain ⟨a2, hfold, hf2, hmem, hout⟩ :=
      nodeStatuses_fold_frontier config data ctx sst rest
        ⟨updateMap a.statuses n
            (if isTerminalNodePath n then JVal.str "active" else JVal.str "inactive"),
          a.frontierFound⟩
        hf
    refine ⟨a2, hfold, hf2, ?_, ?_⟩
    · intro t htl
      rcases List.mem_cons.mp htl with rfl | htr
      · by_cases htr2 : t ∈ rest
        · exact hmem t htr2
        · rw [hout t htr2]
          simp [updateMap]
      · exact hmem t htr
    · intro t htl
      have htn : t ≠ n := fun he => htl (he ▸ List.mem_cons_self n rest)
      have htr : ¬ t ∈ rest := fun hm => htl (List.mem_cons_of_mem n hm)
      rw [hout t htr]
      simp [updateMap, htn]

theorem nodeStatuses_fold_terminal (config : Config) (data : JVal) (ctx : Ctx)
    (sst : String → Option SectionSt) :
    ∀ (l : List String) (a a2 : GraphAcc),
      l.foldl (nodeStatusStep config data ctx sst) (some a) = some a2 →
      ∀ t, isTerminalNodePath t = true →
        (t ∈ l ∨ a.statuses t = JVal.str "active") →
        a2.statuses t = JVal.str "active"
  | [], a, a2, h, t, _, hor => by
    cases h
    rcases hor with hmem | hval
    · simp at hmem
    · exact hval
  | n :: rest, a, a2, h, t, hterm, hor => by
    rw [List.foldl_cons] at h
    cases hstep : nodeStatusStep config data ctx sst (some a) n with
    | none =>
      rw [hstep] at h
      rw [graphFold_none config data ctx sst rest] at h
      exact Option.noConfusion h
    | some a1 =>
      rw [hstep] at h
      apply nodeStatuses_fold_terminal config data ctx sst rest a1 a2 h t hterm
      by_cases htn : t = n
      · subst htn
        rw [nodeStatusStep_terminal config data ctx sst a t hterm] at hstep
        cases hstep
        right
        simp [updateMap]
      · rcases hor with hmem | hval
        · rcases List.mem_cons.mp hmem with he | htr
          · exact absurd he htn
          · exact Or.inl htr
        · right
          rw [nodeStatusStep_other config data ctx sst a a1 n hstep t htn]
          exact hval

/-- Claim C5: frontier short-circuiting. When the node-status reduce
reaches, with no frontier yet found, a non-terminal node s whose
configuration node is an input_section with a section state that is
not valid, the reduce completes: s goes inactive and raises the
frontier, every non-terminal node after s in evaluation order is
inactive (whatever its configuration, so no rule of it is evaluated),
every terminal node anywhere in the order is active, the edge list is
produced from the final statuses, and an edge whose from node is not a
decision node carries exactly its from node's status as base status. -/
theorem evaluateEdgeStates_frontier
    (config : Config) (data : JVal) (ctx : Ctx) (sst : String → Option SectionSt)
    (pre post : List String) (s : String) (acc : GraphAcc) (node : ConfigNode)
    (st : SectionSt)
    (hpre : pre.foldl (nodeStatusStep config data ctx sst)
        (some ⟨fun _ => JVal.undef, false⟩) = some acc)
    (hnf : acc.frontierFound = false)
    (hterm : isTerminalNodePath s = false)
    (hnode : config.getConfigNodeByPath ("$." ++ s) = some node)
    (htype : node.type = "input_section")
    (hsec : sst (jsReplaceOnce node.id "$.") = some st)
    (hst : st.status ≠ "valid") :
    ∃ acc2, nodeStatuses config data ctx sst (pre ++ s :: post) = some acc2
      ∧ acc2.frontierFound = true
      ∧ acc2.statuses s = JVal.str "inactive"
      ∧ (∀ t, t ∈ post → isTerminalNodePath t = false →
          acc2.statuses t = JVal.str "inactive")
      ∧ (∀ t, isTerminalNodePath t = true → t ∈ pre ++ s :: post →
          acc2.statuses t = JVal.str "active")
      ∧ evaluateEdgeStatesWith config data ctx sst (pre ++ s :: post)
          = some (config.edges.map (edgeStatus config acc2.statuses))
      ∧ ∀ e ∈ config.edges,
          ((config.getConfigNodeByPath ("$." ++ e.edgeFrom)).getD {}).type ≠ "decision" →
          (edgeStatus config acc2.statuses e).status = acc2.statuses e.edgeFrom := by
  have hstep : nodeStatusStep config data ctx sst (some acc) s
      = some ⟨updateMap acc.statuses s (JVal.str "inactive"), true⟩ := by
    simp only [nodeStatusStep]
    have h1 : (node.type == "input_section") = true := by simp [htype]
    have h2 : (st.status == "valid") = false := beq_eq_false_iff_ne.mpr hst
    simp [hterm, hnf, hnode, hsec, h1, h2]
  obtain ⟨acc2, hfold, hf2, hmem, hout⟩ :=
    nodeStatuses_fold_frontier config data ctx sst post
      ⟨updateMap acc.statuses s (JVal.str "inactive"), true⟩ rfl
  have hrun : nodeStatuses config data ctx sst (pre ++ s :: post) = some acc2 := by
    unfold nodeStatuses
    rw [List.foldl_append, hpre, List.foldl_cons, hstep, hfold]
  have hss : acc2.statuses s = JVal.str "inactive" := by
    by_cases hsp : s ∈ post
    · rw [hmem s hsp]
      simp [hterm]
    · rw [hout s hsp]
      simp [updateMap]
  refine ⟨acc2, hrun, hf2, hss, ?_, ?_, ?_, ?_⟩
  · intro t htp htt
    rw [hmem t htp]
    simp [htt]
  · intro t htt htl
    rcases List.mem_append.mp htl with htpre | htcons
    · by_cases htp : t ∈ post
      · rw [hmem t htp]
        simp [htt]
      · have htn : t ≠ s := by
          intro he
          rw [he] at htt
          rw [htt] at hterm
          exact Bool.noConfusion hterm
        rw [hout t htp]
        have hpreact : acc.statuses t = JVal.str "active" :=
          nodeStatuses_fold_terminal config data ctx sst pre
            ⟨fun _ => JVal.undef, false⟩ acc hpre t htt (Or.inl htpre)
        simp [updateMap, htn, hpreact]
    · rcases List.mem_cons.mp htcons with he | htp
      · subst he
        rw [htt] at hterm
        exact Bool.noConfusion hterm
      · by_cases htp2 : t ∈ post
        · rw [hmem t htp2]
          simp [htt]
        · exact absurd htp htp2
  · unfold evaluateEdgeStatesWith
    rw [hrun]
    rfl
  · intro e _ hdec
    unfold edgeStatus
    have hd : (((config.getConfigNodeByPath ("$." ++ e.edgeFrom)).getD {}).type
        == "decision") = false := beq_eq_false_iff_ne.mpr hdec
    simp only [hd, Bool.false_and, Bool.false_eq_true, if_false]

/-- Claim C6: decision branching. For an edge whose from node is a
decision node and whose stored status is the decision's resolved
output and not the inactive short-circuit string, the produced edge
state is in the evaluateEdgeStates output, its status is active
exactly when the truthiness of the resolved decision output equals the
truthiness of the edge's when_input_is tag, and the status is one of
active and inactive (a true-branch edge is active when the output is
truthy, a false-branch edge is active when the output is falsy). -/
theorem evaluateEdgeStates_decision
    (config : Config) (data : JVal) (ctx : Ctx) (sst : String → Option SectionSt)
    (order : List String) (acc : GraphAcc) (e : Edge) (node : ConfigNode)
    (hacc : nodeStatuses config data ctx sst order = some acc)
    (hnode : config.getConfigNodeByPath ("$." ++ e.edgeFrom) = some node)
    (htype : node.type = "decision")
    (hout : acc.statuses e.edgeFrom = (resolve ctx data TPath.undef node.output).1)
    (hni : acc.statuses e.edgeFrom ≠ JVal.str "inactive")
    (he : e ∈ config.edges) :
    ∃ es, evaluateEdgeStatesWith config data ctx sst order = some es
      ∧ edgeStatus config acc.statuses e ∈ es
      ∧ ((edgeStatus config acc.statuses e).status = JVal.str "active"
          ↔ truthy (resolve ctx data TPath.undef node.output).1 = truthy e.when_input_is)
      ∧ ((edgeStatus config acc.statuses e).status = JVal.str "active"
          ∨ (edgeStatus config acc.statuses e).status = JVal.str "inactive") := by
  have hgd : (config.getConfigNodeByPath ("$." ++ e.edgeFrom)).getD {} = node := by
    rw [hnode]
    rfl
  have hd : (((config.getConfigNodeByPath ("$." ++ e.edgeFrom)).getD {}).type
      == "decision") = true := by
    rw [hgd, htype]
    rfl
  have hn2 : (acc.statuses e.edgeFrom == JVal.str "inactive") = false :=
    beq_eq_false_iff_ne.mpr hni
  refine ⟨config.edges.map (edgeStatus config acc.statuses), ?_, ?_, ?_, ?_⟩
  · unfold evaluateEdgeStatesWith
    rw [hacc]
    rfl
  · exact List.mem_map_of_mem _ he
  · unfold edgeStatus
    rw [hout] at hn2 ⊢
    cases htr : truthy (resolve ctx data TPath.undef node.output).1 <;>
      cases htw : truthy e.when_input_is <;>
        simp [hd, hn2, htr, htw]
  · unfold edgeStatus
    rw [hout] at hn2 ⊢
    cases htr : truthy (resolve ctx data TPath.undef node.output).1 <;>
      cases htw : truthy e.when_input_is <;>
        simp [hd, hn2, htr, htw]

/-- Witness for claim C5 at the concrete chain START, s1, s2, END with
section s1 invalid and s2 valid: s1 is inactive and raises the
frontier, s2 is inactive, both terminals are active, and the concrete
edge list carries edge START to s1 active and edges s1 to s2 and s2 to
END inactive. -/
theorem evaluateEdgeStates_frontier_witness :
    (∃ acc2, nodeStatuses (⟨fun p => some { id := jsReplaceOnce p "$.", type := "input_section" }, [], [⟨"START", "s1", JVal.undef⟩, ⟨"s1", "s2", JVal.undef⟩, ⟨"s2", "END", JVal.undef⟩]⟩ : Config) (JVal.obj []) (fun _ => none : Ctx) (fun id => if id == "s1" then some ⟨"invalid", []⟩ else some ⟨"valid", []⟩ : String → Option SectionSt) (["START"] ++ "s1" :: ["s2", "END"]) = some acc2
      ∧ acc2.frontierFound = true
      ∧ acc2.statuses "s1" = JVal.str "inactive"
      ∧ (∀ t, t ∈ ["s2", "END"] → isTerminalNodePath t = false →
          acc2.statuses t = JVal.str "inactive")
      ∧ (∀ t, isTerminalNodePath t = true → t ∈ ["START"] ++ "s1" :: ["s2", "END"] →
          acc2.statuses t = JVal.str "active")
      ∧ evaluateEdgeStatesWith (⟨fun p => some { id := jsReplaceOnce p "$.", type := "input_section" }, [], [⟨"START", "s1", JVal.undef⟩, ⟨"s1", "s2", JVal.undef⟩, ⟨"s2", "END", JVal.undef⟩]⟩ : Config) (JVal.obj []) (fun _ => none : Ctx) (fun id => if id == "s1" then some ⟨"invalid", []⟩ else some ⟨"valid", []⟩ : String → Option SectionSt) (["START"] ++ "s1" :: ["s2", "END"])
          = some (((⟨fun p => some { id := jsReplaceOnce p "$.", type := "input_section" }, [], [⟨"START", "s1", JVal.undef⟩, ⟨"s1", "s2", JVal.undef⟩, ⟨"s2", "END", JVal.undef⟩]⟩ : Config)).edges.map (edgeStatus (⟨fun p => some { id := jsReplaceOnce p "$.", type := "input_section" }, [], [⟨"START", "s1", JVal.undef⟩, ⟨"s1", "s2", JVal.undef⟩, ⟨"s2", "END", JVal.undef⟩]⟩ : Config) acc2.statuses))
      ∧ ∀ e ∈ ((⟨fun p => some { id := jsReplaceOnce p "$.", type := "input_section" }, [], [⟨"START", "s1", JVal.undef⟩, ⟨"s1", "s2", JVal.undef⟩, ⟨"s2", "END", JVal.undef⟩]⟩ : Config)).edges,
          ((((⟨fun p => some { id := jsReplaceOnce p "$.", type := "input_section" }, [], [⟨"START", "s1", JVal.undef⟩, ⟨"s1", "s2", JVal.undef⟩, ⟨"s2", "END", JVal.undef⟩]⟩ : Config)).getConfigNodeByPath ("$." ++ e.edgeFrom)).getD {}).type ≠ "decision" →
          (edgeStatus (⟨fun p => some { id := jsReplaceOnce p "$.", type := "input_section" }, [], [⟨"START", "s1", JVal.undef⟩, ⟨"s1", "s2", JVal.undef⟩, ⟨"s2", "END", JVal.undef⟩]⟩ : Config) acc2.statuses e).status = acc2.statuses e.edgeFrom)
    ∧ evaluateEdgeStatesWith (⟨fun p => some { id := jsReplaceOnce p "$.", type := "input_section" }, [], [⟨"START", "s1", JVal.undef⟩, ⟨"s1", "s2", JVal.undef⟩, ⟨"s2", "END", JVal.undef⟩]⟩ : Config) (JVal.obj []) (fun _ => none : Ctx) (fun id => if id == "s1" then some ⟨"invalid", []⟩ else some ⟨"valid", []⟩ : String → Option SectionSt) (["START"] ++ "s1" :: ["s2", "END"])
        = some [⟨"START", "s1", JVal.undef, JVal.str "active"⟩,
            ⟨"s1", "s2", JVal.undef, JVal.str "inactive"⟩,
            ⟨"s2", "END", JVal.undef, JVal.str "inactive"⟩] :=
  ⟨evaluateEdgeStates_frontier (⟨fun p => some { id := jsReplaceOnce p "$.", type := "input_section" }, [], [⟨"START", "s1", JVal.undef⟩, ⟨"s1", "s2", JVal.undef⟩, ⟨"s2", "END", JVal.undef⟩]⟩ : Config) (JVal.obj []) (fun _ => none : Ctx) (fun id => if id == "s1" then some ⟨"invalid", []⟩ else some ⟨"valid", []⟩ : String → Option SectionSt)
      ["START"] ["s2", "END"] "s1" (⟨updateMap (fun _ => JVal.undef) "START" (JVal.str "active"), false⟩ : GraphAcc) ({ id := "s1", type := "input_section" } : ConfigNode) (⟨"invalid", []⟩ : SectionSt)
      rfl rfl rfl rfl rfl rfl (by decide),
    rfl⟩

/-- Witness for claim C6 at a concrete decision node d whose output
resolves to the boolean true, with the true-branch edge d to x: the
edge state is produced and is active exactly when the truthiness of
the resolved output equals the truthiness of the tag. -/
theorem evaluateEdgeStates_decision_witness :
    ∃ es, evaluateEdgeStatesWith (⟨fun _ => some { type := "decision", output := JVal.bool true }, [], [⟨"d", "x", JVal.bool true⟩, ⟨"d", "y", JVal.bool false⟩]⟩ : Config) (JVal.obj []) (fun _ => none : Ctx) (fun _ => none : String → Option SectionSt) ["d"] = some es
      ∧ edgeStatus (⟨fun _ => some { type := "decision", output := JVal.bool true }, [], [⟨"d", "x", JVal.bool true⟩, ⟨"d", "y", JVal.bool false⟩]⟩ : Config) ((⟨updateMap (fun _ => JVal.undef) "d" ((resolve (fun _ => none : Ctx) (JVal.obj []) TPath.undef (JVal.bool true)).1), false⟩ : GraphAcc)).statuses (⟨"d", "x", JVal.bool true⟩ : Edge) ∈ es
      ∧ ((edgeStatus (⟨fun _ => some { type := "decision", output := JVal.bool true }, [], [⟨"d", "x", JVal.bool true⟩, ⟨"d", "y", JVal.bool false⟩]⟩ : Config) ((⟨updateMap (fun _ => JVal.undef) "d" ((resolve (fun _ => none : Ctx) (JVal.obj []) TPath.undef (JVal.bool true)).1), false⟩ : GraphAcc)).statuses (⟨"d", "x", JVal.bool true⟩ : Edge)).status = JVal.str "active"
          ↔ truthy (resolve (fun _ => none : Ctx) (JVal.obj []) TPath.undef (JVal.bool true)).1 = truthy (JVal.bool true))
      ∧ ((edgeStatus (⟨fun _ => some { type := "decision", output := JVal.bool true }, [], [⟨"d", "x", JVal.bool true⟩, ⟨"d", "y", JVal.bool false⟩]⟩ : Config) ((⟨updateMap (fun _ => JVal.undef) "d" ((resolve (fun _ => none : Ctx) (JVal.obj []) TPath.undef (JVal.bool true)).1), false⟩ : GraphAcc)).statuses (⟨"d", "x", JVal.bool true⟩ : Edge)).status = JVal.str "active"
          ∨ (edgeStatus (⟨fun _ => some { type := "decision", output := JVal.bool true }, [], [⟨"d", "x", JVal.bool true⟩, ⟨"d", "y", JVal.bool false⟩]⟩ : Config) ((⟨updateMap (fun _ => JVal.undef) "d" ((resolve (fun _ => none : Ctx) (JVal.obj []) TPath.undef (JVal.bool true)).1), false⟩ : GraphAcc)).statuses (⟨"d", "x", JVal.bool true⟩ : Edge)).status = JVal.str "inactive") :=
  evaluateEdgeStates_decision (⟨fun _ => some { type := "decision", output := JVal.bool true }, [], [⟨"d", "x", JVal.bool true⟩, ⟨"d", "y", JVal.bool false⟩]⟩ : Config) (JVal.obj []) (fun _ => none : Ctx) (fun _ => none : String → Option SectionSt) ["d"] (⟨updateMap (fun _ => JVal.undef) "d" ((resolve (fun _ => none : Ctx) (JVal.obj []) TPath.undef (JVal.bool true)).1), false⟩ : GraphAcc) (⟨"d", "x", JVal.bool true⟩ : Edge) ({ type := "decision", output := JVal.bool true } : ConfigNode)
    rfl rfl rfl rfl
    (by
      show (resolve (fun _ => none : Ctx) (JVal.obj []) TPath.undef (JVal.bool true)).1 ≠ JVal.str "inactive"
      rw [resolve_bool]
      decide)
    (by decide)
